import Mathlib

/-!
Verification of `cycle_check.py`: a dependence-cycle analyzer.

The Python source is shallowly embedded here:
* Python dicts (insertion ordered) become association lists.
* `tarjans_scc` (a recursive DFS, lines 71-107) becomes a fuel-indexed
  recursion returning `Option`; `none` models a Python runtime error
  (`KeyError` on `graph[v]` for a missing key, `IndexError` on popping an
  empty stack) or fuel exhaustion, which we prove never happens on
  well-formed graphs.
* `build_cycle_matrix` (lines 110-140) becomes a function producing a
  total matrix `Nat → Nat → Cell`; cells are the Python values
  `0` (the `np.full` fill), `-1` (NOT_APPLICABLE) and strings
  (comma-joined iterator lists, `"-"` for NO_COMMON_ITERATOR).
* `build_var_graphs` (lines 45-68) consumes the per-line results of
  `EDGE_PATTERN.search`; a line is modelled as `Option EdgeRec`
  (`none` = no regex match, skipped by the `continue` at line 52).
-/

namespace CycleCheck

/-- A directed graph: insertion-ordered association list from a node to its
ordered, de-duplicated successor list (Python `Dict[str, List[str]]`). -/
abbrev Graph (V : Type) := List (V × List V)

variable {V : Type} [DecidableEq V]

/-- The keys of the dict, in insertion order (`graph.keys()`). -/
def keysOf (g : Graph V) : List V := g.map Prod.fst

/-- `graph[v]` as an option: `none` models the Python `KeyError`. -/
def succsOf? (g : Graph V) (v : V) : Option (List V) :=
  (g.find? (fun p => decide (p.1 = v))).map Prod.snd

/-- There is an edge from `u` to `v` in `g`. -/
def edgeRel (g : Graph V) (u v : V) : Prop :=
  ∃ ws, succsOf? g u = some ws ∧ v ∈ ws

instance (g : Graph V) (u v : V) : Decidable (edgeRel g u v) := by
  unfold edgeRel
  exact inferInstance

/-- Reachability along directed edges (reflexive-transitive closure). -/
inductive Reach (g : Graph V) : V → V → Prop
  | refl (v : V) : Reach g v v
  | head {u w v : V} : edgeRel g u w → Reach g w v → Reach g u v

theorem Reach.trans {g : Graph V} {a b c : V}
    (h₁ : Reach g a b) (h₂ : Reach g b c) : Reach g a c := by
  induction h₁ with
  | refl => exact h₂
  | head e _ ih => exact Reach.head e (ih h₂)

theorem Reach.single {g : Graph V} {a b : V} (e : edgeRel g a b) : Reach g a b :=
  Reach.head e (Reach.refl b)

theorem Reach.cases_head {g : Graph V} {a b : V} (h : Reach g a b) :
    a = b ∨ ∃ c, edgeRel g a c ∧ Reach g c b := by
  cases h with
  | refl => exact Or.inl rfl
  | head e t => exact Or.inr ⟨_, e, t⟩

/-- Every successor list mentions only keys of the graph (true of every graph
`build_var_graphs` produces; a non-closed dict would crash `tarjans_scc`
with a `KeyError`). -/
def Closed (g : Graph V) : Prop :=
  ∀ p ∈ g, ∀ w ∈ p.2, w ∈ keysOf g

instance (g : Graph V) : Decidable (Closed g) := by
  unfold Closed
  exact inferInstance

/-! ## Tarjan's algorithm (`tarjans_scc`, lines 71-107) -/

/-- The mutable state of `tarjans_scc`: the discovery counter `index`, the
explicit traversal `stack` (top at the head), the `on_stack` membership set
(modelled as a duplicate-free list), the `indices` and `lowlink` dicts
(modelled as functions into `Option Nat`) and the accumulated `sccs`. -/
structure TState (V : Type) where
  idx : Nat
  stack : List V
  onStack : List V
  ind : V → Option Nat
  low : V → Option Nat
  sccs : List (List V)

/-- Read a dict entry, defaulting to `0`.  Every use is guarded by an
invariant showing the key is present, matching Python (which would raise
`KeyError` otherwise). -/
def getN (f : V → Option Nat) (v : V) : Nat := (f v).getD 0

/-- Pointwise update of a dict. -/
def updF (f : V → Option Nat) (v : V) (n : Nat) : V → Option Nat :=
  fun x => if x = v then some n else f x

/-- Lines 80-85: first visit of `v` — assign `indices[v] = lowlink[v] = index`,
increment the counter, push `v` and add it to `on_stack`. -/
def visit (v : V) (s : TState V) : TState V :=
  { idx := s.idx + 1
    stack := v :: s.stack
    onStack := v :: s.onStack
    ind := updF s.ind v s.idx
    low := updF s.low v s.idx
    sccs := s.sccs }

/-- `lowlink[v] = n`. -/
def setLow (s : TState V) (v : V) (n : Nat) : TState V :=
  { s with low := updF s.low v n }

/-- Lines 96-101: pop the stack down to and including `v`, removing each
popped node from `on_stack` and appending it to the component.  `none`
models the `IndexError` Python would raise if `v` were not on the stack. -/
def popLoop (v : V) : List V → List V → List V → Option (List V × List V × List V)
  | [], _, _ => none
  | w :: rest, onSt, comp =>
    let onSt' := onSt.erase w
    let comp' := comp ++ [w]
    if w = v then some (rest, onSt', comp') else popLoop v rest onSt' comp'

/-- Lines 87-92: the loop `for w in graph[v]`, updating `lowlink[v]` after
each unvisited successor's recursive call, or from `indices[w]` for a
successor already on the stack.  The recursive `dfs` call is passed in as
`f` so that the two functions can be defined by structural recursion. -/
def processSuccsH (g : Graph V) (f : V → TState V → Option (TState V)) (v : V) :
    List V → TState V → Option (TState V)
  | [], s => some s
  | w :: ws, s =>
    if (s.ind w).isNone then
      match f w s with
      | none => none
      | some s' =>
        processSuccsH g f v ws (setLow s' v (min (getN s'.low v) (getN s'.low w)))
    else if w ∈ s.onStack then
      processSuccsH g f v ws (setLow s v (min (getN s.low v) (getN s.ind w)))
    else
      processSuccsH g f v ws s

/-- Lines 79-102: the recursive `dfs`.  The fuel argument bounds the
recursion depth; `none` is fuel exhaustion or a Python runtime error, and
we prove fuel `≥` the number of unvisited keys always suffices. -/
def dfs (g : Graph V) : Nat → V → TState V → Option (TState V)
  | 0, _, _ => none
  | fuel + 1, v, s₀ =>
    let s := visit v s₀
    match succsOf? g v with
    | none => none
    | some ws =>
      match processSuccsH g (dfs g fuel) v ws s with
      | none => none
      | some s₁ =>
        if getN s₁.low v = getN s₁.ind v then
          match popLoop v s₁.stack s₁.onStack [] with
          | none => none
          | some (st, onSt, comp) =>
            some { s₁ with stack := st, onStack := onSt, sccs := s₁.sccs ++ [comp] }
        else some s₁

/-- The successor loop with the `dfs` of a given fuel plugged in. -/
def processSuccs (g : Graph V) (fuel : Nat) (v : V) (ws : List V)
    (s : TState V) : Option (TState V) :=
  processSuccsH g (dfs g fuel) v ws s

/-- The empty starting state. -/
def initState : TState V :=
  { idx := 0, stack := [], onStack := [], ind := fun _ => none
    low := fun _ => none, sccs := [] }

/-- Lines 104-106: `for node in graph: if node not in indices: dfs(node)`. -/
def mainLoop (g : Graph V) (fuel : Nat) : List V → TState V → Option (TState V)
  | [], s => some s
  | v :: vs, s =>
    if (s.ind v).isNone then
      match dfs g fuel v s with
      | none => none
      | some s' => mainLoop g fuel vs s'
    else mainLoop g fuel vs s

/-- `tarjans_scc` (lines 71-107): run the main loop over the keys in
insertion order and return the accumulated components. -/
def tarjansSCC (g : Graph V) : Option (List (List V)) :=
  (mainLoop g (keysOf g).length (keysOf g) initState).map TState.sccs

/-! ## The edge stream and `build_var_graphs` (lines 45-68)

A line of the input stream is modelled by the result of
`EDGE_PATTERN.search` on it: `none` when the regex does not match (the
line is skipped by the `continue` at line 52), `some r` with the five
captured groups otherwise. -/

/-- The five groups captured by `EDGE_PATTERN`. -/
structure EdgeRec where
  srcStmt : String
  tgtStmt : String
  srcRef : String
  tgtRef : String
  var : String
deriving DecidableEq

/-- Lines 55-56: `f"{stmt}_r{ref}_{var}"`. -/
def nodeName (stmt ref var : String) : String :=
  stmt ++ "_r" ++ ref ++ "_" ++ var

/-- Association-list lookup (`m.get(k)` / `m[k]` on a Python dict). -/
def findA {α : Type} (m : List (String × α)) (k : String) : Option α :=
  (m.find? (fun p => decide (p.1 = k))).map Prod.snd

/-- Update the (single) binding of `k`, mirroring mutation of a dict value. -/
def updateA {α : Type} : List (String × α) → String → (α → α) → List (String × α)
  | [], _, _ => []
  | p :: rest, k, f =>
    if p.1 = k then (p.1, f p.2) :: rest else p :: updateA rest k f

/-- `g.setdefault(k, [])` (lines 62-63): insert an empty successor list if
`k` is not yet a key. -/
def setdefaultG (g : Graph String) (k : String) : Graph String :=
  if k ∈ keysOf g then g else g ++ [(k, [])]

/-- Lines 62-66: register both endpoints (`g1`, `g2` are the graph after
the two `setdefault` calls), then append `tgt` to `g[src]` unless already
present. -/
def addEdge (g : Graph String) (src tgt : String) : Graph String :=
  if tgt ∈ (succsOf? (setdefaultG (setdefaultG g src) tgt) src).getD [] then
    setdefaultG (setdefaultG g src) tgt
  else
    updateA (setdefaultG (setdefaultG g src) tgt) src (fun ws => ws ++ [tgt])

/-- The per-variable graphs dict. -/
abbrev Graphs := List (String × Graph String)

/-- Lines 49-66: process one line of the stream. -/
def processLine (gs : Graphs) : Option EdgeRec → Graphs
  | none => gs
  | some r =>
    let src := nodeName r.srcStmt r.srcRef r.var
    let tgt := nodeName r.tgtStmt r.tgtRef r.var
    let gs1 := if r.var ∈ gs.map Prod.fst then gs else gs ++ [(r.var, [])]
    updateA gs1 r.var (fun g => addEdge g src tgt)

/-- `build_var_graphs` (lines 45-68). -/
def buildVarGraphs (stream : List (Option EdgeRec)) : Graphs :=
  stream.foldl processLine []

/-! ## `build_cycle_matrix` (lines 110-140) -/

/-- Code-point lexicographic strict comparison of character lists: the
order Python uses to compare strings. -/
def strLtB : List Char → List Char → Bool
  | [], [] => false
  | [], _ :: _ => true
  | _ :: _, [] => false
  | a :: as, b :: bs =>
    if a.toNat < b.toNat then true
    else if b.toNat < a.toNat then false
    else strLtB as bs

/-- `a <= b` on Python strings. -/
def pyLeB (a b : String) : Bool := !(strLtB b.data a.data)

/-- The ordering relation used by `pySort`. -/
def pyLe (a b : String) : Prop := pyLeB a b = true

instance : DecidableRel pyLe := fun a b => by
  unfold pyLe
  exact inferInstance

/-- Python `sorted` on a list of strings. -/
def pySort (l : List String) : List String :=
  l.insertionSort pyLe

/-- A cell of the numpy object matrix: a Python int (`0` is the `np.full`
fill value of line 119, `-1` is NOT_APPLICABLE from line 137) or a string
(the comma-joined common iterators, `"-"` for NO_COMMON_ITERATOR,
line 130). -/
inductive Cell where
  | int (n : Int)
  | str (s : String)
deriving DecidableEq

/-- The matrix as a total function; entries outside the `n × n` range are
never read by the program. -/
abbrev Mat := Nat → Nat → Cell

/-- `M[i, j] = c`. -/
def msetM (M : Mat) (i j : Nat) (c : Cell) : Mat :=
  fun a b => if a = i ∧ b = j then c else M a b

/-- `u.split('_')[0]` (lines 127-128, 134-135): the prefix of `u` before
its first underscore (all of `u` if it has none). -/
def stmtOf (u : String) : String :=
  String.mk (u.data.takeWhile (fun c => !(c = '_')))

/-- `stmt_iters.get(u.split('_')[0], [])`. -/
def itersOf (si : List (String × List String)) (u : String) : List String :=
  (findA si (stmtOf u)).getD []

/-- `stmt_depth.get(u.split('_')[0])` — `none` when the statement is absent
from the metadata section. -/
def depthOf (sd : List (String × Nat)) (u : String) : Option Nat :=
  findA sd (stmtOf u)

/-- `set(a) & set(b)` (line 129): the set of elements common to both lists.
`enum` is the enumeration order in which the runtime yields the members of
the set; it is always a permutation of the distinct common elements, and
the pipeline's output is proved independent of it. -/
def pySetInter (enum : List String → List String) (a b : List String) : List String :=
  enum ((a.filter (fun x => decide (x ∈ b))).dedup)

/-- Lines 127-130: the annotation written for the ordered pair `(u, v)`. -/
def commonCell (enum : List String → List String)
    (si : List (String × List String)) (u v : String) : Cell :=
  let common := pySort (pySetInter enum (itersOf si u) (itersOf si v))
  Cell.str (if common.isEmpty then "-" else String.intercalate "," common)

/-- Lines 122-130: annotate all ordered pairs of distinct nodes of one
component. -/
def annotatePairs (enum : List String → List String)
    (si : List (String × List String)) (nodes : List String)
    (C : List String) (M : Mat) : Mat :=
  C.foldl (fun Ma u =>
    C.foldl (fun Mb v =>
      if u = v then Mb
      else msetM Mb (nodes.indexOf u) (nodes.indexOf v) (commonCell enum si u v)) Ma) M

/-- Line 121: loop over the (size > 1) components. -/
def annotateAll (enum : List String → List String)
    (si : List (String × List String)) (nodes : List String)
    (comps : List (List String)) (M : Mat) : Mat :=
  comps.foldl (fun Ma C => annotatePairs enum si nodes C Ma) M

/-- Lines 132-137: force the diagonal and every equal-depth pair
(`None == None` included) to `-1`. -/
def forceNA (sd : List (String × Nat)) (nodes : List String) (M : Mat) : Mat :=
  nodes.enum.foldl (fun Ma iu =>
    nodes.enum.foldl (fun Mb jv =>
      if iu.1 = jv.1 ∨ depthOf sd iu.2 = depthOf sd jv.2
      then msetM Mb iu.1 jv.1 (Cell.int (-1)) else Mb) Ma) M

/-- `build_cycle_matrix` (lines 110-140), parameterized by the set
enumeration order `enum`: keep the components of size > 1 (line 116), sort
the node labels (line 117), fill the matrix with `0` (line 119), annotate
cyclic pairs (lines 121-130), then force `-1` cells (lines 132-137). -/
def buildCycleMatrixE (enum : List String → List String) (g : Graph String)
    (sd : List (String × Nat)) (si : List (String × List String)) :
    Option (Mat × List String) :=
  (tarjansSCC g).map fun allSccs =>
    let sccs := allSccs.filter (fun c => decide (1 < c.length))
    let nodes := pySort (keysOf g)
    let M1 := annotateAll enum si nodes sccs (fun _ _ => Cell.int 0)
    (forceNA sd nodes M1, nodes)

/-- `build_cycle_matrix` with the canonical enumeration order. -/
def buildCycleMatrix (g : Graph String) (sd : List (String × Nat))
    (si : List (String × List String)) : Option (Mat × List String) :=
  buildCycleMatrixE id g sd si

/-- Line 116: the components the code treats as cyclic. -/
def cyclicComponents (g : Graph String) : Option (List (List String)) :=
  (tarjansSCC g).map (fun l => l.filter (fun c => decide (1 < c.length)))

/-! ## The reporter (`main`, lines 170-177) -/

/-- `f"{s:>w}"`: right-align to width `w` with spaces. -/
def pad (w : Nat) (s : String) : String :=
  if s.length < w then String.mk (List.replicate (w - s.length) ' ') ++ s else s

/-- Python `str(cell)`. -/
def cellStr : Cell → String
  | Cell.int n => toString n
  | Cell.str s => s

/-- An ASCII single-quote character, used by the section header. -/
def sq : String := String.mk [Char.ofNat 39]

/-- Lines 172-177: the lines printed for one variable's section.  Each
`print` contributes one line; the leading `"\n"` of the header contributes
an empty line. -/
def renderSection (var : String) (M : Mat) (nodes : List String) : List String :=
  let header := "      " ++ String.intercalate " " (nodes.map (pad 10))
  let rows := (List.range nodes.length).map fun i =>
    pad 6 (nodes.getD i "") ++ " " ++
      String.intercalate " " ((List.range nodes.length).map fun j => pad 10 (cellStr (M i j)))
  ["", "--- Variable " ++ sq ++ var ++ sq ++ " ---", header] ++ rows

/-- Lines 170-177: render every variable's section in dict order; a crash
while building one matrix (impossible for graphs built by
`build_var_graphs`, as proved below) aborts the run. -/
def renderAll (enum : List String → List String) (gs : Graphs)
    (sd : List (String × Nat)) (si : List (String × List String)) :
    Option (List String) :=
  match gs with
  | [] => some []
  | (var, g) :: rest =>
    match buildCycleMatrixE enum g sd si with
    | none => none
    | some (M, nodes) =>
      (renderAll enum rest sd si).map (fun ls => renderSection var M nodes ++ ls)

/-- The whole in-memory pipeline of `main` (lines 167-177): build the
per-variable graphs from the edge stream, then render every section. -/
def pipelineRender (enum : List String → List String)
    (stream : List (Option EdgeRec)) (sd : List (String × Nat))
    (si : List (String × List String)) : Option (List String) :=
  renderAll enum (buildVarGraphs stream) sd si

/-! ## The Python string order is a linear order -/

theorem strLtB_irrefl : ∀ l : List Char, strLtB l l = false
  | [] => rfl
  | a :: as => by simp [strLtB, strLtB_irrefl as]

theorem char_toNat_inj {a b : Char} (h : a.toNat = b.toNat) : a = b :=
  Char.ext (UInt32.toNat.inj h)

theorem strLtB_asymm : ∀ {l m : List Char}, strLtB l m = true → strLtB m l = false
  | [], [], h => by simp [strLtB] at h
  | [], _ :: _, _ => rfl
  | _ :: _, [], h => by simp [strLtB] at h
  | a :: as, b :: bs, h => by
    simp only [strLtB] at h ⊢
    rcases Nat.lt_trichotomy a.toNat b.toNat with h1 | h1 | h1
    · simp [Nat.lt_asymm h1, h1]
    · simp only [h1, Nat.lt_irrefl, if_false] at h ⊢
      exact strLtB_asymm h
    · simp [h1, Nat.lt_asymm h1] at h

theorem strLtB_trans : ∀ {l m n : List Char},
    strLtB l m = true → strLtB m n = true → strLtB l n = true
  | [], [], _, h1, _ => by simp [strLtB] at h1
  | [], _ :: _, [], _, h2 => by simp [strLtB] at h2
  | [], _ :: _, _ :: _, _, _ => rfl
  | _ :: _, [], _, h1, _ => by simp [strLtB] at h1
  | _ :: _, _ :: _, [], _, h2 => by simp [strLtB] at h2
  | a :: as, b :: bs, c :: cs, h1, h2 => by
    simp only [strLtB] at h1 h2 ⊢
    rcases Nat.lt_trichotomy a.toNat b.toNat with hab | hab | hab <;>
      rcases Nat.lt_trichotomy b.toNat c.toNat with hbc | hbc | hbc
    · simp [Nat.lt_trans hab hbc]
    · simp [hbc ▸ hab]
    · simp [hbc, Nat.lt_asymm hbc] at h2
    · simp [hab ▸ hbc]
    · simp only [hab, hbc, Nat.lt_irrefl, if_false] at h1 h2 ⊢
      exact strLtB_trans h1 h2
    · simp [hbc, Nat.lt_asymm hbc] at h2
    · simp [hab, Nat.lt_asymm hab] at h1
    · simp [hab, Nat.lt_asymm hab] at h1
    · simp [hab, Nat.lt_asymm hab] at h1

theorem strLtB_eq : ∀ {l m : List Char},
    strLtB l m = false → strLtB m l = false → l = m
  | [], [], _, _ => rfl
  | [], _ :: _, h1, _ => by simp [strLtB] at h1
  | _ :: _, [], _, h2 => by simp [strLtB] at h2
  | a :: as, b :: bs, h1, h2 => by
    simp only [strLtB] at h1 h2
    rcases Nat.lt_trichotomy a.toNat b.toNat with hab | hab | hab
    · simp [hab] at h1
    · simp only [hab, Nat.lt_irrefl, if_false] at h1 h2
      rw [char_toNat_inj hab, strLtB_eq h1 h2]
    · simp [hab, Nat.lt_asymm hab] at h2

theorem string_data_inj {a b : String} (h : a.data = b.data) : a = b := by
  cases a; cases b; simp_all

instance : IsTotal String pyLe := by
  constructor
  intro a b
  unfold pyLe pyLeB
  rcases h : strLtB b.data a.data with _ | _
  · simp [h]
  · simp [strLtB_asymm h]

instance : IsTrans String pyLe := by
  constructor
  intro a b c h1 h2
  unfold pyLe pyLeB at h1 h2 ⊢
  simp only [Bool.not_eq_true'] at h1 h2 ⊢
  rcases hca : strLtB c.data a.data with _ | _
  · rfl
  · exfalso
    rcases hab : strLtB a.data b.data with _ | _
    · rw [strLtB_eq hab h1] at hca
      rw [hca] at h2
      cases h2
    · have h3 := strLtB_trans hca hab
      rw [h3] at h2
      cases h2

instance : IsAntisymm String pyLe := by
  constructor
  intro a b h1 h2
  unfold pyLe pyLeB at h1 h2
  simp only [Bool.not_eq_true'] at h1 h2
  exact string_data_inj (strLtB_eq h2 h1)

theorem pySort_sorted (l : List String) : (pySort l).Sorted pyLe :=
  List.sorted_insertionSort _ l

theorem pySort_perm (l : List String) : (pySort l).Perm l :=
  List.perm_insertionSort _ l

/-- Sorting is invariant under permutation of the input: the key fact behind
the pipeline's determinism. -/
theorem pySort_eq_of_perm {l m : List String} (h : l.Perm m) : pySort l = pySort m :=
  List.eq_of_perm_of_sorted ((pySort_perm l).trans (h.trans (pySort_perm m).symm))
    (pySort_sorted l) (pySort_sorted m)

/-! ## Reading cells back out of the assignment loops -/

theorem msetM_read (M : Mat) (p q i j : Nat) (c : Cell) :
    (msetM M p q c) i j = if i = p ∧ j = q then c else M i j := rfl

/-- A fold whose steps never touch the cell `(i, j)` leaves it unchanged. -/
theorem foldl_write_miss {α : Type} (step : Mat → α → Mat) (p : α → Prop)
    (i j : Nat) (hmiss : ∀ M x, ¬ p x → (step M x) i j = M i j) :
    ∀ (l : List α) (M : Mat), (∀ x ∈ l, ¬ p x) → (l.foldl step M) i j = M i j
  | [], M, _ => rfl
  | x :: xs, M, hl => by
    rw [List.foldl_cons,
      foldl_write_miss step p i j hmiss xs (step M x) (fun y hy => hl y (List.mem_cons_of_mem x hy)),
      hmiss M x (hl x (List.mem_cons_self x xs))]

/-- A fold in which some step writes `c` into `(i, j)`, and every step that
touches `(i, j)` writes exactly `c`, ends with `c` there. -/
theorem foldl_write_hit {α : Type} (step : Mat → α → Mat) (p : α → Prop)
    (c : Cell) (i j : Nat)
    (hmiss : ∀ M x, ¬ p x → (step M x) i j = M i j)
    (hhit : ∀ M x, p x → (step M x) i j = c) :
    ∀ (l : List α) (M : Mat), (∃ x ∈ l, p x) → (l.foldl step M) i j = c
  | x :: xs, M, hl => by
    rw [List.foldl_cons]
    by_cases hrest : ∃ y ∈ xs, p y
    · exact foldl_write_hit step p c i j hmiss hhit xs (step M x) hrest
    · have hx : p x := by
        rcases hl with ⟨y, hy, hpy⟩
        rcases List.mem_cons.mp hy with rfl | hy'
        · exact hpy
        · exact absurd ⟨y, hy', hpy⟩ hrest
      rw [foldl_write_miss step p i j hmiss xs (step M x)
          (fun y hy hpy => hrest ⟨y, hy, hpy⟩)]
      exact hhit M x hx

/-- Characterization of `forceNA`: the cell of a pair of in-range nodes is
`-1` exactly when the pair is diagonal or equal-depth. -/
theorem forceNA_read_hit (sd : List (String × Nat)) (nodes : List String)
    (M : Mat) (i j : Nat) (u v : String)
    (hi : nodes[i]? = some u) (hj : nodes[j]? = some v)
    (hcond : i = j ∨ depthOf sd u = depthOf sd v) :
    (forceNA sd nodes M) i j = Cell.int (-1) := by
  unfold forceNA
  apply foldl_write_hit _
    (fun iu : Nat × String => iu.1 = i ∧
      ∃ jv ∈ nodes.enum, jv.1 = j ∧ (iu.1 = jv.1 ∨ depthOf sd iu.2 = depthOf sd jv.2))
  · intro Ma iu hiu
    apply foldl_write_miss _
      (fun jv : Nat × String => iu.1 = i ∧ jv.1 = j ∧
        (iu.1 = jv.1 ∨ depthOf sd iu.2 = depthOf sd jv.2))
    · intro Mb jv hjv
      split
      · rw [msetM_read]
        rename_i hc
        split
        · rename_i hij
          exact absurd ⟨hij.1.symm, hij.2.symm, hc⟩ hjv
        · rfl
      · rfl
    · intro jv hjv ⟨h1, h2, h3⟩
      exact hiu ⟨h1, jv, hjv, h2, h1 ▸ h3⟩
  · intro Ma iu ⟨h1, jv, hjv, h2, h3⟩
    apply foldl_write_hit _
      (fun jv : Nat × String => iu.1 = i ∧ jv.1 = j ∧
        (iu.1 = jv.1 ∨ depthOf sd iu.2 = depthOf sd jv.2))
    · intro Mb jv' hjv'
      split
      · rw [msetM_read]
        rename_i hc
        split
        · rename_i hij
          exact absurd ⟨hij.1.symm, hij.2.symm, hc⟩ hjv'
        · rfl
      · rfl
    · intro Mb jv' ⟨ha, hb, hc⟩
      rw [if_pos hc, msetM_read, if_pos ⟨ha.symm, hb.symm⟩]
    · exact ⟨jv, hjv, h1, h2, h3⟩
  · exact ⟨⟨i, u⟩, by
      rw [List.mem_enum_iff_getElem?]
      exact hi, rfl, ⟨j, v⟩, by
      rw [List.mem_enum_iff_getElem?]
      exact hj, rfl, hcond⟩

/-- Characterization of `forceNA`: an off-diagonal unequal-depth in-range
cell is untouched. -/
theorem forceNA_read_miss (sd : List (String × Nat)) (nodes : List String)
    (M : Mat) (i j : Nat) (u v : String)
    (hi : nodes[i]? = some u) (hj : nodes[j]? = some v)
    (hij : i ≠ j) (hdep : depthOf sd u ≠ depthOf sd v) :
    (forceNA sd nodes M) i j = M i j := by
  unfold forceNA
  apply foldl_write_miss _
    (fun iu : Nat × String => iu.1 = i ∧
      ∃ jv ∈ nodes.enum, jv.1 = j ∧ (iu.1 = jv.1 ∨ depthOf sd iu.2 = depthOf sd jv.2))
  · intro Ma iu hiu
    apply foldl_write_miss _
      (fun jv : Nat × String => iu.1 = i ∧ jv.1 = j ∧
        (iu.1 = jv.1 ∨ depthOf sd iu.2 = depthOf sd jv.2))
    · intro Mb jv hjv
      split
      · rw [msetM_read]
        rename_i hc
        split
        · rename_i h4
          exact absurd ⟨h4.1.symm, h4.2.symm, hc⟩ hjv
        · rfl
      · rfl
    · intro jv hjv ⟨h1, h2, h3⟩
      exact hiu ⟨h1, jv, hjv, h2, h1 ▸ h3⟩
  · rintro ⟨i', u'⟩ hmem ⟨rfl, ⟨j', v'⟩, hmem', rfl, hor⟩
    rw [List.mem_enum_iff_getElem?] at hmem hmem'
    rcases hor with h | h
    · exact hij h
    · rw [hi] at hmem
      rw [hj] at hmem'
      cases hmem
      cases hmem'
      exact hdep h

theorem indexOf_ne {l : List String} {a b : String}
    (ha : a ∈ l) (hb : b ∈ l) (h : a ≠ b) : l.indexOf a ≠ l.indexOf b :=
  fun hc => h ((List.indexOf_inj ha hb).mp hc)

theorem mem_of_indexOf_lt {l : List String} {a : String}
    (h : l.indexOf a < l.length) : a ∈ l := by
  by_contra hc
  rw [List.indexOf_eq_length.mpr hc] at h
  exact Nat.lt_irrefl _ h

/-- Characterization of the annotation loop over one component: a cyclic
pair of in-range nodes receives its common-iterator annotation. -/
theorem annotatePairs_read_hit (enum : List String → List String)
    (si : List (String × List String)) (nodes : List String)
    (u₀ v₀ : String)
    (hu : u₀ ∈ nodes) (hv : v₀ ∈ nodes) (hne : u₀ ≠ v₀)
    (C : List String) (M : Mat) (huC : u₀ ∈ C) (hvC : v₀ ∈ C) :
    (annotatePairs enum si nodes C M) (nodes.indexOf u₀) (nodes.indexOf v₀)
      = commonCell enum si u₀ v₀ := by
  unfold annotatePairs
  apply foldl_write_hit _
    (fun u : String => ∃ v ∈ C, u ≠ v ∧
      nodes.indexOf u = nodes.indexOf u₀ ∧ nodes.indexOf v = nodes.indexOf v₀)
  · intro Ma u hmiss
    apply foldl_write_miss _
      (fun v : String => u ≠ v ∧
        nodes.indexOf u = nodes.indexOf u₀ ∧ nodes.indexOf v = nodes.indexOf v₀)
    · intro Mb v hvmiss
      split
      · rfl
      · rw [msetM_read]
        rename_i huv
        split
        · rename_i hidx
          exact absurd ⟨huv, hidx.1.symm, hidx.2.symm⟩ hvmiss
        · rfl
    · intro v hvmem hp
      exact hmiss ⟨v, hvmem, hp⟩
  · intro Ma u ⟨v, hvmem, huv, hiu, hiv⟩
    have humem : u ∈ nodes := mem_of_indexOf_lt (hiu ▸ List.indexOf_lt_length.mpr hu)
    have hvmem' : v ∈ nodes := mem_of_indexOf_lt (hiv ▸ List.indexOf_lt_length.mpr hv)
    have hu0 : u = u₀ := (List.indexOf_inj humem hu).mp hiu
    have hv0 : v = v₀ := (List.indexOf_inj hvmem' hv).mp hiv
    apply foldl_write_hit _
      (fun v : String => u ≠ v ∧
        nodes.indexOf u = nodes.indexOf u₀ ∧ nodes.indexOf v = nodes.indexOf v₀)
    · intro Mb w hwmiss
      split
      · rfl
      · rw [msetM_read]
        rename_i huw
        split
        · rename_i hidx
          exact absurd ⟨huw, hidx.1.symm, hidx.2.symm⟩ hwmiss
        · rfl
    · intro Mb w ⟨huw, hiu', hiw⟩
      have hwmem : w ∈ nodes := mem_of_indexOf_lt (hiw ▸ List.indexOf_lt_length.mpr hv)
      have hw0 : w = v₀ := (List.indexOf_inj hwmem hv).mp hiw
      rw [if_neg huw, msetM_read, if_pos ⟨hiu'.symm, hiw.symm⟩, hu0, hw0]
    · exact ⟨v, hvmem, huv, hiu, hiv⟩
  · exact ⟨u₀, huC, v₀, hvC, hne, rfl, rfl⟩

/-- A component not containing the pair leaves its cell alone. -/
theorem annotatePairs_read_miss (enum : List String → List String)
    (si : List (String × List String)) (nodes : List String)
    (u₀ v₀ : String)
    (hu : u₀ ∈ nodes) (hv : v₀ ∈ nodes)
    (C : List String) (M : Mat) (hC : ¬(u₀ ∈ C ∧ v₀ ∈ C ∧ u₀ ≠ v₀)) :
    (annotatePairs enum si nodes C M) (nodes.indexOf u₀) (nodes.indexOf v₀)
      = M (nodes.indexOf u₀) (nodes.indexOf v₀) := by
  unfold annotatePairs
  apply foldl_write_miss _
    (fun u : String => ∃ v ∈ C, u ≠ v ∧
      nodes.indexOf u = nodes.indexOf u₀ ∧ nodes.indexOf v = nodes.indexOf v₀)
  · intro Ma u hmiss
    apply foldl_write_miss _
      (fun v : String => u ≠ v ∧
        nodes.indexOf u = nodes.indexOf u₀ ∧ nodes.indexOf v = nodes.indexOf v₀)
    · intro Mb v hvmiss
      split
      · rfl
      · rw [msetM_read]
        rename_i huv
        split
        · rename_i hidx
          exact absurd ⟨huv, hidx.1.symm, hidx.2.symm⟩ hvmiss
        · rfl
    · intro v hvmem hp
      exact hmiss ⟨v, hvmem, hp⟩
  · rintro u humem ⟨v, hvmem, huv, hiu, hiv⟩
    have humem' : u ∈ nodes := mem_of_indexOf_lt (hiu ▸ List.indexOf_lt_length.mpr hu)
    have hvmem' : v ∈ nodes := mem_of_indexOf_lt (hiv ▸ List.indexOf_lt_length.mpr hv)
    have hu0 : u = u₀ := (List.indexOf_inj humem' hu).mp hiu
    have hv0 : v = v₀ := (List.indexOf_inj hvmem' hv).mp hiv
    subst hu0
    subst hv0
    exact hC ⟨humem, hvmem, huv⟩

/-- Characterization of the whole annotation pass: the cell of a cyclic
pair gets the annotation. -/
theorem annotateAll_read_hit (enum : List String → List String)
    (si : List (String × List String)) (nodes : List String)
    (u₀ v₀ : String)
    (hu : u₀ ∈ nodes) (hv : v₀ ∈ nodes) (hne : u₀ ≠ v₀)
    (comps : List (List String)) (M : Mat)
    (hhit : ∃ C ∈ comps, u₀ ∈ C ∧ v₀ ∈ C) :
    (annotateAll enum si nodes comps M) (nodes.indexOf u₀) (nodes.indexOf v₀)
      = commonCell enum si u₀ v₀ := by
  unfold annotateAll
  apply foldl_write_hit _ (fun C : List String => u₀ ∈ C ∧ v₀ ∈ C)
  · intro Ma C hmiss
    exact annotatePairs_read_miss enum si nodes u₀ v₀ hu hv C Ma
      (fun h => hmiss ⟨h.1, h.2.1⟩)
  · intro Ma C hhit'
    exact annotatePairs_read_hit enum si nodes u₀ v₀ hu hv hne C Ma hhit'.1 hhit'.2
  · exact hhit

/-- If no (size > 1) component contains the pair, the cell keeps its
initial fill. -/
theorem annotateAll_read_miss (enum : List String → List String)
    (si : List (String × List String)) (nodes : List String)
    (u₀ v₀ : String)
    (hu : u₀ ∈ nodes) (hv : v₀ ∈ nodes)
    (comps : List (List String)) (M : Mat)
    (hmiss : ∀ C ∈ comps, ¬(u₀ ∈ C ∧ v₀ ∈ C ∧ u₀ ≠ v₀)) :
    (annotateAll enum si nodes comps M) (nodes.indexOf u₀) (nodes.indexOf v₀)
      = M (nodes.indexOf u₀) (nodes.indexOf v₀) := by
  unfold annotateAll
  apply foldl_write_miss _
    (fun C : List String => u₀ ∈ C ∧ v₀ ∈ C ∧ u₀ ≠ v₀)
  · intro Ma C hCmiss
    exact annotatePairs_read_miss enum si nodes u₀ v₀ hu hv C Ma hCmiss
  · exact hmiss

/-! ## Inversion principles for the recursion -/

theorem dfs_zero_inv {g : Graph V} {v : V} {s : TState V} {s' : TState V}
    (h : dfs g 0 v s = some s') : False := by
  rw [dfs] at h
  cases h

/-- Big-step inversion for a successful `dfs` call. -/
theorem dfs_some_inv {g : Graph V} {fuel : Nat} {v : V} {s₀ s' : TState V}
    (h : dfs g (fuel + 1) v s₀ = some s') :
    ∃ ws s₁, succsOf? g v = some ws ∧
      processSuccs g fuel v ws (visit v s₀) = some s₁ ∧
      ((getN s₁.low v = getN s₁.ind v ∧
        ∃ st onSt comp, popLoop v s₁.stack s₁.onStack [] = some (st, onSt, comp) ∧
          s' = { s₁ with stack := st, onStack := onSt, sccs := s₁.sccs ++ [comp] }) ∨
       (getN s₁.low v ≠ getN s₁.ind v ∧ s' = s₁)) := by
  rw [dfs] at h
  split at h
  · cases h
  · rename_i ws hws
    split at h
    · cases h
    · rename_i s₁ hps
      refine ⟨ws, s₁, hws, hps, ?_⟩
      split at h
      · rename_i heq
        split at h
        · cases h
        · rename_i st onSt comp hpop
          cases h
          exact Or.inl ⟨heq, st, onSt, comp, hpop, rfl⟩
      · rename_i hne
        cases h
        exact Or.inr ⟨hne, rfl⟩

theorem processSuccs_nil_inv {g : Graph V} {fuel : Nat} {v : V} {s s' : TState V}
    (h : processSuccs g fuel v [] s = some s') : s' = s := by
  rw [processSuccs, processSuccsH] at h
  cases h
  rfl

/-- Big-step inversion for one iteration of the successor loop. -/
theorem processSuccs_cons_inv {g : Graph V} {fuel : Nat} {v w : V}
    {ws : List V} {s s' : TState V}
    (h : processSuccs g fuel v (w :: ws) s = some s') :
    ((s.ind w).isNone ∧ ∃ s₂, dfs g fuel w s = some s₂ ∧
      processSuccs g fuel v ws
        (setLow s₂ v (min (getN s₂.low v) (getN s₂.low w))) = some s') ∨
    (¬(s.ind w).isNone ∧ w ∈ s.onStack ∧
      processSuccs g fuel v ws
        (setLow s v (min (getN s.low v) (getN s.ind w))) = some s') ∨
    (¬(s.ind w).isNone ∧ w ∉ s.onStack ∧ processSuccs g fuel v ws s = some s') := by
  rw [processSuccs, processSuccsH] at h
  split at h
  · rename_i hw
    split at h
    · cases h
    · rename_i s₂ hd
      exact Or.inl ⟨by simpa using hw, s₂, hd, h⟩
  · rename_i hw
    split at h
    · rename_i hmem
      exact Or.inr (Or.inl ⟨by simpa using hw, hmem, h⟩)
    · rename_i hmem
      exact Or.inr (Or.inr ⟨by simpa using hw, hmem, h⟩)

theorem mainLoop_nil_inv {g : Graph V} {fuel : Nat} {s s' : TState V}
    (h : mainLoop g fuel [] s = some s') : s' = s := by
  rw [mainLoop] at h
  cases h
  rfl

theorem mainLoop_cons_inv {g : Graph V} {fuel : Nat} {v : V} {vs : List V}
    {s s' : TState V} (h : mainLoop g fuel (v :: vs) s = some s') :
    ((s.ind v).isNone ∧ ∃ s₂, dfs g fuel v s = some s₂ ∧
      mainLoop g fuel vs s₂ = some s') ∨
    (¬(s.ind v).isNone ∧ mainLoop g fuel vs s = some s') := by
  rw [mainLoop] at h
  split at h
  · rename_i hv
    split at h
    · cases h
    · rename_i s₂ hd
      exact Or.inl ⟨by simpa using hv, s₂, hd, h⟩
  · rename_i hv
    exact Or.inr ⟨by simpa using hv, h⟩

/-! ## Components only contain keys of the graph -/

/-- Both the stack and the accumulated components only ever hold keys. -/
def KeysBound (g : Graph V) (s : TState V) : Prop :=
  (∀ x ∈ s.stack, x ∈ keysOf g) ∧ (∀ C ∈ s.sccs, ∀ x ∈ C, x ∈ keysOf g)

theorem succsOf_closed {g : Graph V} (hg : Closed g) {v : V} {ws : List V}
    (h : succsOf? g v = some ws) : ∀ w ∈ ws, w ∈ keysOf g := by
  unfold succsOf? at h
  rcases hfind : g.find? (fun p => decide (p.1 = v)) with _ | p
  · rw [hfind] at h
    cases h
  · rw [hfind] at h
    cases h
    exact hg p (List.mem_of_find?_eq_some hfind)

theorem keysBound_visit {g : Graph V} {s : TState V} {v : V}
    (hv : v ∈ keysOf g) (hs : KeysBound g s) : KeysBound g (visit v s) := by
  refine ⟨?_, hs.2⟩
  intro x hx
  rcases List.mem_cons.mp hx with rfl | hx'
  · exact hv
  · exact hs.1 x hx'

theorem keysBound_setLow {g : Graph V} {s : TState V} {v : V} {n : Nat}
    (hs : KeysBound g s) : KeysBound g (setLow s v n) := hs

theorem popLoop_mem {v : V} :
    ∀ {st o c st' o' c'}, popLoop v st o c = some (st', o', c') →
      (∀ x ∈ st', x ∈ st) ∧ (∀ x ∈ c', x ∈ c ∨ x ∈ st)
  | [], _, _, _, _, _, h => by cases h
  | w :: rest, o, c, st', o', c', h => by
    rw [popLoop] at h
    split at h
    · cases h
      refine ⟨fun x hx => List.mem_cons_of_mem w hx, fun x hx => ?_⟩
      rcases List.mem_append.mp hx with hx' | hx'
      · exact Or.inl hx'
      · have hxw : x = w := by simpa using hx'
        exact Or.inr (hxw ▸ List.mem_cons_self w rest)
    · have hrec := popLoop_mem h
      refine ⟨fun x hx => List.mem_cons_of_mem w (hrec.1 x hx), fun x hx => ?_⟩
      rcases hrec.2 x hx with hx' | hx'
      · rcases List.mem_append.mp hx' with hx'' | hx''
        · exact Or.inl hx''
        · have hxw : x = w := by simpa using hx''
          exact Or.inr (hxw ▸ List.mem_cons_self w rest)
      · exact Or.inr (List.mem_cons_of_mem w hx')

theorem keysBound_ladder (g : Graph V) (hg : Closed g) : ∀ fuel : Nat,
    (∀ v s s', v ∈ keysOf g → KeysBound g s →
      dfs g fuel v s = some s' → KeysBound g s') ∧
    (∀ v ws s s', (∀ w ∈ ws, w ∈ keysOf g) → KeysBound g s →
      processSuccs g fuel v ws s = some s' → KeysBound g s') := by
  have hdfs : ∀ fuel : Nat,
      (∀ v ws s s', (∀ w ∈ ws, w ∈ keysOf g) → KeysBound g s →
        processSuccs g fuel v ws s = some s' → KeysBound g s') →
      (∀ v s s', v ∈ keysOf g → KeysBound g s →
        dfs g (fuel + 1) v s = some s' → KeysBound g s') := by
    intro fuel hQ v s s' hv hs h
    obtain ⟨ws, s₁, hws, hps, hrest⟩ := dfs_some_inv h
    have hs₁ : KeysBound g s₁ :=
      hQ v ws (visit v s) s₁ (succsOf_closed hg hws) (keysBound_visit hv hs) hps
    rcases hrest with ⟨_, st, onSt, comp, hpop, rfl⟩ | ⟨_, rfl⟩
    · have hmem := popLoop_mem hpop
      refine ⟨fun x hx => hs₁.1 x (hmem.1 x hx), ?_⟩
      intro C hC x hx
      rcases List.mem_append.mp hC with hC' | hC'
      · exact hs₁.2 C hC' x hx
      · have hCc : C = comp := by simpa using hC'
        subst hCc
        rcases hmem.2 x hx with hx' | hx'
        · cases hx'
        · exact hs₁.1 x hx'
    · exact hs₁
  have hproc : ∀ fuel : Nat,
      (∀ v s s', v ∈ keysOf g → KeysBound g s →
        dfs g fuel v s = some s' → KeysBound g s') →
      (∀ v ws s s', (∀ w ∈ ws, w ∈ keysOf g) → KeysBound g s →
        processSuccs g fuel v ws s = some s' → KeysBound g s') := by
    intro fuel hP v ws
    induction ws with
    | nil =>
      intro s s' _ hs h
      rw [processSuccs_nil_inv h]
      exact hs
    | cons w ws ih =>
      intro s s' hws hs h
      rcases processSuccs_cons_inv h with
        ⟨_, s₂, hd, hrest⟩ | ⟨_, _, hrest⟩ | ⟨_, _, hrest⟩
      · have hs₂ := hP w s s₂ (hws w (List.mem_cons_self w ws)) hs hd
        exact ih _ s' (fun x hx => hws x (List.mem_cons_of_mem w hx))
          (keysBound_setLow hs₂) hrest
      · exact ih _ s' (fun x hx => hws x (List.mem_cons_of_mem w hx))
          (keysBound_setLow hs) hrest
      · exact ih _ s' (fun x hx => hws x (List.mem_cons_of_mem w hx)) hs hrest
  intro fuel
  induction fuel with
  | zero =>
    constructor
    · intro v s s' _ _ h
      exact absurd h (fun h => dfs_zero_inv h)
    · exact hproc 0 (fun v s s' _ _ h => absurd h (fun h => dfs_zero_inv h))
  | succ fuel ih =>
    have hP := hdfs fuel ih.2
    exact ⟨hP, hproc (fuel + 1) hP⟩

theorem mainLoop_keysBound {g : Graph V} (hg : Closed g) {fuel : Nat} :
    ∀ {vs : List V} {s s' : TState V}, (∀ v ∈ vs, v ∈ keysOf g) →
      KeysBound g s → mainLoop g fuel vs s = some s' → KeysBound g s'
  | [], s, s', _, hs, h => by
    rw [mainLoop_nil_inv h]
    exact hs
  | v :: vs, s, s', hvs, hs, h => by
    rcases mainLoop_cons_inv h with ⟨_, s₂, hd, hrest⟩ | ⟨_, hrest⟩
    · have hs₂ := (keysBound_ladder g hg fuel).1 v s s₂
        (hvs v (List.mem_cons_self v vs)) hs hd
      exact mainLoop_keysBound hg (fun x hx => hvs x (List.mem_cons_of_mem v hx)) hs₂ hrest
    · exact mainLoop_keysBound hg (fun x hx => hvs x (List.mem_cons_of_mem v hx)) hs hrest

/-- Every component returned by `tarjans_scc` consists of keys of the
graph. -/
theorem tarjansSCC_comps_keys {g : Graph V} (hg : Closed g)
    {l : List (List V)} (h : tarjansSCC g = some l) :
    ∀ C ∈ l, ∀ x ∈ C, x ∈ keysOf g := by
  unfold tarjansSCC at h
  rcases hm : mainLoop g (keysOf g).length (keysOf g) initState with _ | s
  · rw [hm] at h
    cases h
  · rw [hm] at h
    cases h
    have hkb : KeysBound g s :=
      mainLoop_keysBound hg (fun v hv => hv)
        ⟨fun x hx => absurd hx (List.not_mem_nil x),
         fun C hC => absurd hC (List.not_mem_nil C)⟩ hm
    exact hkb.2

/-! ## Further plumbing for the matrix claims -/

theorem getElem?_indexOf {l : List String} {a : String} (h : a ∈ l) :
    l[l.indexOf a]? = some a := by
  have hlt := List.indexOf_lt_length.mpr h
  rw [List.getElem?_eq_getElem hlt, List.getElem_indexOf hlt]

theorem mem_pySort {l : List String} {a : String} (h : a ∈ l) : a ∈ pySort l :=
  (pySort_perm l).mem_iff.mpr h

theorem buildCycleMatrixE_ne_none {enum : List String → List String}
    {g : Graph String} {sd : List (String × Nat)} {si : List (String × List String)}
    (h : (tarjansSCC g).isSome = true) : buildCycleMatrixE enum g sd si ≠ none := by
  unfold buildCycleMatrixE
  rcases ht : tarjansSCC g with _ | l
  · rw [ht] at h
    cases h
  · intro hc
    cases hc

/-- Unpack a successful `build_cycle_matrix` run into its pieces. -/
theorem buildCycleMatrixE_inv {enum : List String → List String}
    {g : Graph String} {sd : List (String × Nat)} {si : List (String × List String)}
    {M : Mat} {nodes : List String}
    (h : buildCycleMatrixE enum g sd si = some (M, nodes)) :
    ∃ l, tarjansSCC g = some l ∧ nodes = pySort (keysOf g) ∧
      M = forceNA sd (pySort (keysOf g))
        (annotateAll enum si (pySort (keysOf g))
          (l.filter (fun c => decide (1 < c.length))) (fun _ _ => Cell.int 0)) := by
  unfold buildCycleMatrixE at h
  rcases ht : tarjansSCC g with _ | l
  · rw [ht] at h
    cases h
  · rw [ht] at h
    simp only [Option.map_some] at h
    cases h
    exact ⟨l, rfl, rfl, rfl⟩

/-- A directed cycle: an edge `v → w` from a node of the graph together
with a path back from `w` to `v` (a self-edge is the case `w = v`). -/
def HasCycle (g : Graph V) : Prop :=
  ∃ v w, v ∈ keysOf g ∧ edgeRel g v w ∧ Reach g w v

/-! ## C1 — self-edge singletons and the cyclic-component set -/

/-- The self-loop graph of the claim: one node with an edge to itself. -/
def gSelf : Graph String := [("N", ["N"])]

/-- C1, counterexample: in `gSelf` the node `N` has a self-edge and forms a
singleton strongly connected component, yet line 116 (`len(c) > 1`) drops
it, so the code reports no cyclic component at all. -/
theorem c1_counterexample :
    edgeRel gSelf "N" "N" ∧
    tarjansSCC gSelf = some [["N"]] ∧
    cyclicComponents gSelf = some [] := by
  refine ⟨⟨["N"], by decide, by decide⟩, by decide, by decide⟩

/-- Modelled from the spec (§4.4): a component counts as a cycle iff its
size exceeds 1 or it is a singleton whose node has a self-edge. -/
def specCyclicFilter (g : Graph String) (c : List String) : Bool :=
  decide (1 < c.length) ||
    (match c with
     | [x] => decide (edgeRel g x x)
     | _ => false)

/-- `build_cycle_matrix` as it would be with the spec's cycle definition
(self-edge singletons kept). -/
def buildCycleMatrixSelf (g : Graph String) (sd : List (String × Nat))
    (si : List (String × List String)) : Option (Mat × List String) :=
  (tarjansSCC g).map fun allSccs =>
    let sccs := allSccs.filter (specCyclicFilter g)
    let nodes := pySort (keysOf g)
    let M1 := annotateAll id si nodes sccs (fun _ _ => Cell.int 0)
    (forceNA sd nodes M1, nodes)

theorem annotatePairs_singleton (enum : List String → List String)
    (si : List (String × List String)) (nodes : List String)
    (x : String) (M : Mat) : annotatePairs enum si nodes [x] M = M := by
  simp [annotatePairs]

theorem annotateAll_filter_eq (enum : List String → List String)
    (si : List (String × List String)) (nodes : List String)
    (p₁ p₂ : List String → Bool)
    (hup : ∀ c, p₁ c = true → p₂ c = true)
    (hdown : ∀ c, p₂ c = true → p₁ c = false → ∃ x, c = [x]) :
    ∀ (l : List (List String)) (M : Mat),
      annotateAll enum si nodes (l.filter p₁) M =
        annotateAll enum si nodes (l.filter p₂) M
  | [], _ => rfl
  | c :: l, M => by
    rcases h1 : p₁ c with _ | _
    · rcases h2 : p₂ c with _ | _
      · rw [List.filter_cons_of_neg (by simp [h1]),
          List.filter_cons_of_neg (by simp [h2])]
        exact annotateAll_filter_eq enum si nodes p₁ p₂ hup hdown l M
      · obtain ⟨x, rfl⟩ := hdown c h2 h1
        rw [List.filter_cons_of_neg (by simp [h1]), List.filter_cons_of_pos (by simp [h2])]
        show annotateAll enum si nodes (List.filter p₁ l) M =
          annotateAll enum si nodes (List.filter p₂ l) (annotatePairs enum si nodes [x] M)
        rw [annotatePairs_singleton]
        exact annotateAll_filter_eq enum si nodes p₁ p₂ hup hdown l M
    · rw [List.filter_cons_of_pos (by simp [h1]),
        List.filter_cons_of_pos (by simp [hup c h1])]
      show annotateAll enum si nodes (List.filter p₁ l) (annotatePairs enum si nodes c M) =
        annotateAll enum si nodes (List.filter p₂ l) (annotatePairs enum si nodes c M)
      exact annotateAll_filter_eq enum si nodes p₁ p₂ hup hdown l _

/-- C1, amended: the code counts only components of size > 1 as cyclic
(line 116), dropping self-edge singletons; but since a singleton component
contributes no ordered pair of distinct nodes, the resulting cycle matrix
is identical to the one the spec's cycle definition would produce. -/
theorem c1_amended (g : Graph String) (sd : List (String × Nat))
    (si : List (String × List String)) :
    buildCycleMatrix g sd si = buildCycleMatrixSelf g sd si := by
  unfold buildCycleMatrix buildCycleMatrixE buildCycleMatrixSelf
  rcases ht : tarjansSCC g with _ | l
  · rfl
  · show some _ = some _
    dsimp only
    have hmat := annotateAll_filter_eq id si (pySort (keysOf g))
      (fun c => decide (1 < c.length)) (specCyclicFilter g)
      (fun c hc => by simp [specCyclicFilter, hc])
      (fun c h2 h1 => by
        have h1' : decide (1 < c.length) = false := h1
        unfold specCyclicFilter at h2
        rw [h1'] at h2
        simp only [Bool.false_or] at h2
        rcases c with _ | ⟨x, _ | ⟨y, t⟩⟩
        · cases h2
        · exact ⟨x, rfl⟩
        · cases h2)
      l (fun _ _ => Cell.int 0)
    rw [hmat]

/-! ## C2 — equal depths force NOT_APPLICABLE -/

/-- C2: for any two distinct nodes of the graph whose statements have equal
depths — including both depths unknown — the cell is `-1`
(NOT_APPLICABLE), regardless of any cyclic-component membership: the
second loop (lines 132-137) runs after the annotation loop and overwrites
the cell. -/
theorem c2_equal_depth_na (g : Graph String) (sd : List (String × Nat))
    (si : List (String × List String)) (u v : String)
    (hu : u ∈ keysOf g) (hv : v ∈ keysOf g) (hne : u ≠ v)
    (hdep : depthOf sd u = depthOf sd v) (M : Mat) (nodes : List String)
    (hm : buildCycleMatrix g sd si = some (M, nodes)) :
    M (nodes.indexOf u) (nodes.indexOf v) = Cell.int (-1) := by
  obtain ⟨l, ht, hn, hM⟩ := buildCycleMatrixE_inv hm
  subst hn
  subst hM
  exact forceNA_read_hit sd _ _ _ _ u v
    (getElem?_indexOf (mem_pySort hu)) (getElem?_indexOf (mem_pySort hv))
    (Or.inr hdep)

/-- Witness for C2: the spec's end-to-end scenario — a two-node cycle whose
statements both have depth 1 — yields `-1` despite cycle membership. -/
theorem c2_witness :
    ∃ M nodes, buildCycleMatrix
        [("S1_r0_a", ["S2_r0_a"]), ("S2_r0_a", ["S1_r0_a"])]
        [("S1", 1), ("S2", 1)] [("S1", ["i"]), ("S2", ["i"])] = some (M, nodes) ∧
      M (nodes.indexOf "S1_r0_a") (nodes.indexOf "S2_r0_a") = Cell.int (-1) := by
  rcases hm : buildCycleMatrix
      [("S1_r0_a", ["S2_r0_a"]), ("S2_r0_a", ["S1_r0_a"])]
      [("S1", 1), ("S2", 1)] [("S1", ["i"]), ("S2", ["i"])] with _ | ⟨M, nodes⟩
  · exact absurd hm (buildCycleMatrixE_ne_none (by decide))
  · exact ⟨M, nodes, rfl,
      c2_equal_depth_na _ _ _ "S1_r0_a" "S2_r0_a" (by decide) (by decide)
        (by decide) (by decide) M nodes hm⟩

/-! ## C5 — common iterators for unequal defined depths -/

/-- C5: an ordered pair of distinct nodes of a common (size > 1) component
whose statements have defined, unequal depths is annotated with the
sorted, comma-joined intersection of the two iterator lists (the empty
intersection rendering as `"-"`): the first loop writes it and the second
loop leaves it because the depths differ. -/
theorem c5_common_iterators (g : Graph String) (sd : List (String × Nat))
    (si : List (String × List String)) (hg : Closed g) (u v : String)
    (hne : u ≠ v) (l : List (List String)) (C : List String)
    (hl : tarjansSCC g = some l) (hC : C ∈ l) (hlen : 1 < C.length)
    (huC : u ∈ C) (hvC : v ∈ C) (d₁ d₂ : Nat)
    (hd₁ : depthOf sd u = some d₁) (hd₂ : depthOf sd v = some d₂)
    (hdne : d₁ ≠ d₂) (M : Mat) (nodes : List String)
    (hm : buildCycleMatrix g sd si = some (M, nodes)) :
    M (nodes.indexOf u) (nodes.indexOf v) =
      Cell.str
        (if (pySort (((itersOf si u).filter
            (fun x => decide (x ∈ itersOf si v))).dedup)).isEmpty
         then "-"
         else String.intercalate ","
           (pySort (((itersOf si u).filter
             (fun x => decide (x ∈ itersOf si v))).dedup))) := by
  obtain ⟨l₀, ht, hn, hM⟩ := buildCycleMatrixE_inv hm
  rw [hl] at ht
  cases ht
  subst hn
  subst hM
  have hu : u ∈ keysOf g := tarjansSCC_comps_keys hg hl C hC u huC
  have hv : v ∈ keysOf g := tarjansSCC_comps_keys hg hl C hC v hvC
  have hun : u ∈ pySort (keysOf g) := mem_pySort hu
  have hvn : v ∈ pySort (keysOf g) := mem_pySort hv
  rw [forceNA_read_miss sd _ _ _ _ u v (getElem?_indexOf hun) (getElem?_indexOf hvn)
      (indexOf_ne hun hvn hne)
      (by
        rw [hd₁, hd₂]
        intro hc
        exact hdne (Option.some.inj hc))]
  rw [annotateAll_read_hit id si _ u v hun hvn hne _ _
      ⟨C, List.mem_filter.mpr ⟨hC, by simpa using hlen⟩, huC, hvC⟩]
  rfl

/-- The two-node mutual dependence of the claim's example. -/
def gAB : Graph String := [("A_r0_x", ["B_r0_x"]), ("B_r0_x", ["A_r0_x"])]

def sdAB : List (String × Nat) := [("A", 2), ("B", 3)]

def siAB : List (String × List String) := [("A", ["i", "j"]), ("B", ["i", "k"])]

/-- Witness for C5, the claim's own example: depths 2 and 3, iterator lists
`["i","j"]` and `["i","k"]` — one two-node component and both cells `"i"`. -/
theorem c5_witness :
    tarjansSCC gAB = some [["B_r0_x", "A_r0_x"]] ∧
    ∃ M nodes, buildCycleMatrix gAB sdAB siAB = some (M, nodes) ∧
      M (nodes.indexOf "A_r0_x") (nodes.indexOf "B_r0_x") = Cell.str "i" ∧
      M (nodes.indexOf "B_r0_x") (nodes.indexOf "A_r0_x") = Cell.str "i" := by
  refine ⟨by decide, ?_⟩
  rcases hm : buildCycleMatrix gAB sdAB siAB with _ | ⟨M, nodes⟩
  · exact absurd hm (buildCycleMatrixE_ne_none (by decide))
  · refine ⟨M, nodes, rfl, ?_, ?_⟩
    · exact (c5_common_iterators gAB sdAB siAB (by decide) "A_r0_x" "B_r0_x"
        (by decide) [["B_r0_x", "A_r0_x"]] ["B_r0_x", "A_r0_x"] (by decide)
        (by decide) (by decide) (by decide) (by decide) 2 3 (by decide)
        (by decide) (by decide) M nodes hm).trans (by decide)
    · exact (c5_common_iterators gAB sdAB siAB (by decide) "B_r0_x" "A_r0_x"
        (by decide) [["B_r0_x", "A_r0_x"]] ["B_r0_x", "A_r0_x"] (by decide)
        (by decide) (by decide) (by decide) (by decide) 3 2 (by decide)
        (by decide) (by decide) M nodes hm).trans (by decide)

/-! ## C7 — statements absent from the metadata section -/

/-- C7: a pair of a cyclic component with at least one statement absent
from the metadata (absent from both the depth and the iterator dicts)
resolves to `-1` (equal unknown depths) or `"-"` (no common iterator,
since the absent side's iterator list is empty); and the metadata never
affects whether the run succeeds. -/
theorem c7_unknown_metadata (g : Graph String) (sd : List (String × Nat))
    (si : List (String × List String)) (hg : Closed g) (u v : String)
    (hne : u ≠ v) (l : List (List String)) (C : List String)
    (hl : tarjansSCC g = some l) (hC : C ∈ l) (hlen : 1 < C.length)
    (huC : u ∈ C) (hvC : v ∈ C)
    (habs : (findA sd (stmtOf u) = none ∧ findA si (stmtOf u) = none) ∨
            (findA sd (stmtOf v) = none ∧ findA si (stmtOf v) = none))
    (M : Mat) (nodes : List String)
    (hm : buildCycleMatrix g sd si = some (M, nodes)) :
    (M (nodes.indexOf u) (nodes.indexOf v) = Cell.int (-1) ∨
      M (nodes.indexOf u) (nodes.indexOf v) = Cell.str "-") ∧
    ∀ (sd' : List (String × Nat)) (si' : List (String × List String)),
      (buildCycleMatrix g sd' si').isSome = true := by
  constructor
  · obtain ⟨l₀, ht, hn, hM⟩ := buildCycleMatrixE_inv hm
    rw [hl] at ht
    cases ht
    subst hn
    subst hM
    have hu : u ∈ keysOf g := tarjansSCC_comps_keys hg hl C hC u huC
    have hv : v ∈ keysOf g := tarjansSCC_comps_keys hg hl C hC v hvC
    have hun : u ∈ pySort (keysOf g) := mem_pySort hu
    have hvn : v ∈ pySort (keysOf g) := mem_pySort hv
    by_cases hdep : depthOf sd u = depthOf sd v
    · exact Or.inl (forceNA_read_hit sd _ _ _ _ u v (getElem?_indexOf hun)
        (getElem?_indexOf hvn) (Or.inr hdep))
    · refine Or.inr ?_
      rw [forceNA_read_miss sd _ _ _ _ u v (getElem?_indexOf hun)
          (getElem?_indexOf hvn) (indexOf_ne hun hvn hne) hdep]
      rw [annotateAll_read_hit id si _ u v hun hvn hne _ _
          ⟨C, List.mem_filter.mpr ⟨hC, by simpa using hlen⟩, huC, hvC⟩]
      unfold commonCell
      rcases habs with ⟨-, hiu⟩ | ⟨-, hiv⟩
      · have hempty : itersOf si u = [] := by
          unfold itersOf
          rw [hiu]
          rfl
        rw [hempty]
        rfl
      · have hempty : itersOf si v = [] := by
          unfold itersOf
          rw [hiv]
          rfl
        rw [hempty]
        have hfil : (itersOf si u).filter (fun x => decide (x ∈ ([] : List String))) = [] := by
          simp
        dsimp only [pySetInter]
        rw [hfil]
        rfl
  · intro sd' si'
    unfold buildCycleMatrix buildCycleMatrixE
    rw [hl]
    rfl

/-- A graph whose statement `A` is missing from the metadata section. -/
def sdB : List (String × Nat) := [("B", 1)]

def siB : List (String × List String) := [("B", ["i"])]

/-- Witness for C7: in the two-node cycle, statement `A` is absent from the
metadata; the cell resolves to `"-"` (here the depths differ: unknown
versus defined), and metadata never affects run success. -/
theorem c7_witness :
    ∃ M nodes, buildCycleMatrix gAB sdB siB = some (M, nodes) ∧
      (M (nodes.indexOf "A_r0_x") (nodes.indexOf "B_r0_x") = Cell.int (-1) ∨
        M (nodes.indexOf "A_r0_x") (nodes.indexOf "B_r0_x") = Cell.str "-") ∧
      ∀ (sd' : List (String × Nat)) (si' : List (String × List String)),
        (buildCycleMatrix gAB sd' si').isSome = true := by
  rcases hm : buildCycleMatrix gAB sdB siB with _ | ⟨M, nodes⟩
  · exact absurd hm (buildCycleMatrixE_ne_none (by decide))
  · obtain ⟨h1, h2⟩ := c7_unknown_metadata gAB sdB siB (by decide) "A_r0_x" "B_r0_x"
      (by decide) [["B_r0_x", "A_r0_x"]] ["B_r0_x", "A_r0_x"] (by decide)
      (by decide) (by decide) (by decide) (by decide)
      (Or.inl ⟨by decide, by decide⟩) M nodes hm
    exact ⟨M, nodes, rfl, h1, h2⟩

/-! ## C3 — acyclic graphs and the matrix fill value -/

/-- The acyclic two-node graph of the counterexample. -/
def gC3 : Graph String := [("S1_r0_a", ["S2_r0_a"]), ("S2_r0_a", [])]

def sdC3 : List (String × Nat) := [("S1", 1), ("S2", 2)]

/-- The two-node chain `gC3` has no directed cycle. -/
theorem gC3_no_cycle : ¬ HasCycle gC3 := by
  rintro ⟨v, w, hv, ⟨ws, hws, hmem⟩, hreach⟩
  have hv2 : v = "S1_r0_a" ∨ v = "S2_r0_a" := by
    simpa [keysOf, gC3] using hv
  rcases hv2 with rfl | rfl
  · have hws' : ws = ["S2_r0_a"] := by
      have hcomp : succsOf? gC3 "S1_r0_a" = some ["S2_r0_a"] := by decide
      rw [hcomp] at hws
      exact (Option.some.inj hws).symm
    subst hws'
    have hw : w = "S2_r0_a" := by simpa using hmem
    subst hw
    rcases hreach.cases_head with heq | ⟨c, ⟨ws', hws', hmem'⟩, -⟩
    · exact absurd heq (by decide)
    · have hnil : ws' = [] := by
        have h2 : succsOf? gC3 "S2_r0_a" = some [] := by decide
        rw [h2] at hws'
        exact (Option.some.inj hws').symm
      subst hnil
      cases hmem'
  · have hws' : ws = [] := by
      have h2 : succsOf? gC3 "S2_r0_a" = some [] := by decide
      rw [h2] at hws
      exact (Option.some.inj hws).symm
    subst hws'
    cases hmem

/-- C3, counterexample: `gC3` has no cycles and its SCC decomposition is
all singletons, but the off-diagonal cell for the unequal-depth pair
`(S1_r0_a, S2_r0_a)` — row 0, column 1 of the sorted node list — is the
`np.full` fill value `0` (line 119), not `-1` (NOT_APPLICABLE): the code
initializes cells to `0` and only the diagonal/equal-depth pass writes
`-1`. -/
theorem c3_counterexample :
    (¬ HasCycle gC3) ∧
    (buildCycleMatrix gC3 sdC3 []).map (fun p => (p.2, p.1 0 1)) =
      some (["S1_r0_a", "S2_r0_a"], Cell.int 0) ∧
    Cell.int 0 ≠ Cell.int (-1) := by
  refine ⟨gC3_no_cycle, ?_, by decide⟩
  decide

/-! ## C8 — every edge endpoint is a key of its variable's graph -/

theorem updateA_keys {α : Type} (k : String) (f : α → α) :
    ∀ m : List (String × α), (updateA m k f).map Prod.fst = m.map Prod.fst
  | [] => rfl
  | p :: rest => by
    unfold updateA
    split
    · rfl
    · simp only [List.map_cons]
      rw [updateA_keys k f rest]

theorem findA_cons {α : Type} (p : String × α) (rest : List (String × α))
    (k : String) :
    findA (p :: rest) k = if p.1 = k then some p.2 else findA rest k := by
  unfold findA
  rw [List.find?_cons]
  rcases hpk : decide (p.1 = k) with _ | _
  · rw [if_neg (of_decide_eq_false hpk)]
  · rw [if_pos (of_decide_eq_true hpk)]
    rfl

theorem updateA_cons {α : Type} (p : String × α) (rest : List (String × α))
    (k : String) (f : α → α) :
    updateA (p :: rest) k f =
      if p.1 = k then (p.1, f p.2) :: rest else p :: updateA rest k f := rfl

theorem findA_updateA_self {α : Type} (k : String) (f : α → α) :
    ∀ {m : List (String × α)} {a : α}, findA m k = some a →
      findA (updateA m k f) k = some (f a)
  | [], a, h => by cases h
  | p :: rest, a, h => by
    rw [findA_cons] at h
    rw [updateA_cons]
    by_cases hpk : p.1 = k
    · rw [if_pos hpk] at h
      cases h
      rw [if_pos hpk, findA_cons, if_pos hpk]
    · rw [if_neg hpk] at h
      rw [if_neg hpk, findA_cons, if_neg hpk]
      exact findA_updateA_self k f h

theorem findA_updateA_ne {α : Type} (k k' : String) (f : α → α) (hne : k' ≠ k) :
    ∀ m : List (String × α), findA (updateA m k f) k' = findA m k'
  | [] => rfl
  | p :: rest => by
    rw [updateA_cons]
    by_cases hpk : p.1 = k
    · rw [if_pos hpk, findA_cons, findA_cons]
      have hcond : ¬ p.1 = k' := by
        rw [hpk]
        exact fun hc => hne hc.symm
      rw [if_neg hcond, if_neg hcond]
    · rw [if_neg hpk, findA_cons, findA_cons]
      by_cases hpk' : p.1 = k'
      · rw [if_pos hpk', if_pos hpk']
      · rw [if_neg hpk', if_neg hpk']
        exact findA_updateA_ne k k' f hne rest

theorem findA_append_some {α : Type} {m : List (String × α)} {k : String}
    {a : α} (h : findA m k = some a) (m₂ : List (String × α)) :
    findA (m ++ m₂) k = some a := by
  unfold findA at h ⊢
  rcases hf : m.find? (fun p => decide (p.1 = k)) with _ | p
  · rw [hf] at h
    cases h
  · rw [hf] at h
    rw [List.find?_append, hf]
    exact h

theorem findA_append_right {α : Type} {m : List (String × α)} {k : String}
    (h : findA m k = none) (a : α) : findA (m ++ [(k, a)]) k = some a := by
  unfold findA at h ⊢
  rcases hf : m.find? (fun p => decide (p.1 = k)) with _ | p
  · rw [List.find?_append, hf]
    simp
  · rw [hf] at h
    cases h

theorem findA_none_of_not_mem {α : Type} {m : List (String × α)} {k : String}
    (h : k ∉ m.map Prod.fst) : findA m k = none := by
  unfold findA
  rcases hf : m.find? (fun p => decide (p.1 = k)) with _ | p
  · rw [hf]
    rfl
  · have hp := List.find?_some hf
    have hmem := List.mem_of_find?_eq_some hf
    exact absurd (List.mem_map.mpr ⟨p, hmem, of_decide_eq_true hp⟩) h

theorem findA_some_of_mem {α : Type} {m : List (String × α)} {k : String}
    (h : k ∈ m.map Prod.fst) : ∃ a, findA m k = some a := by
  rcases hf : m.find? (fun p => decide (p.1 = k)) with _ | p
  · obtain ⟨p, hp, hpk⟩ := List.mem_map.mp h
    have hnone := List.find?_eq_none.mp hf p hp
    exact absurd (decide_eq_true hpk) hnone
  · refine ⟨p.2, ?_⟩
    unfold findA
    rw [hf]
    rfl

theorem updateA_pred {α : Type} (k : String) (f : α → α) (P : α → Prop)
    (hf : ∀ a, P a → P (f a)) :
    ∀ m : List (String × α), (∀ p ∈ m, P p.2) → ∀ p ∈ updateA m k f, P p.2
  | [], _, p, hp => by cases hp
  | q :: rest, hm, p, hp => by
    unfold updateA at hp
    split at hp
    · rcases List.mem_cons.mp hp with rfl | hp'
      · exact hf q.2 (hm q (List.mem_cons_self q rest))
      · exact hm p (List.mem_cons_of_mem q hp')
    · rcases List.mem_cons.mp hp with rfl | hp'
      · exact hm p (List.mem_cons_self p rest)
      · exact updateA_pred k f P hf rest
          (fun x hx => hm x (List.mem_cons_of_mem q hx)) p hp'

theorem setdefaultG_keys_mono {g : Graph String} {k x : String}
    (h : x ∈ keysOf g) : x ∈ keysOf (setdefaultG g k) := by
  unfold setdefaultG
  split
  · exact h
  · unfold keysOf at h ⊢
    rw [List.map_append]
    exact List.mem_append_left _ h

theorem setdefaultG_key_mem (g : Graph String) (k : String) :
    k ∈ keysOf (setdefaultG g k) := by
  unfold setdefaultG
  split
  · assumption
  · unfold keysOf
    rw [List.map_append]
    exact List.mem_append_right _ (by simp)

theorem setdefaultG_closed {g : Graph String} (hg : Closed g) (k : String) :
    Closed (setdefaultG g k) := by
  unfold setdefaultG
  split
  · exact hg
  · intro p hp w hw
    rcases List.mem_append.mp hp with hp' | hp'
    · have hk : w ∈ keysOf g := hg p hp' w hw
      unfold keysOf
      rw [List.map_append]
      exact List.mem_append_left _ hk
    · have hpk : p = (k, []) := by simpa using hp'
      subst hpk
      cases hw

theorem addEdge_closed {g : Graph String} (hg : Closed g) (src tgt : String) :
    Closed (addEdge g src tgt) := by
  unfold addEdge
  have h2 : Closed (setdefaultG (setdefaultG g src) tgt) :=
    setdefaultG_closed (setdefaultG_closed hg src) tgt
  split
  · exact h2
  · intro p hp w hw
    unfold keysOf
    rw [show (updateA (setdefaultG (setdefaultG g src) tgt) src
        (fun ws => ws ++ [tgt])).map Prod.fst
        = (setdefaultG (setdefaultG g src) tgt).map Prod.fst from updateA_keys _ _ _]
    refine updateA_pred src (fun ws => ws ++ [tgt])
      (fun ws => ∀ w ∈ ws, w ∈ keysOf (setdefaultG (setdefaultG g src) tgt)) ?_
      _ h2 p hp w hw
    intro ws hws x hx
    rcases List.mem_append.mp hx with hx' | hx'
    · exact hws x hx'
    · have hxt : x = tgt := by simpa using hx'
      rw [hxt]
      exact setdefaultG_key_mem _ tgt

theorem addEdge_keys_mono {g : Graph String} {x : String} (src tgt : String)
    (h : x ∈ keysOf g) : x ∈ keysOf (addEdge g src tgt) := by
  unfold addEdge
  have h2 : x ∈ keysOf (setdefaultG (setdefaultG g src) tgt) :=
    setdefaultG_keys_mono (setdefaultG_keys_mono h)
  split
  · exact h2
  · unfold keysOf
    rw [show (updateA (setdefaultG (setdefaultG g src) tgt) src
        (fun ws => ws ++ [tgt])).map Prod.fst
        = (setdefaultG (setdefaultG g src) tgt).map Prod.fst from updateA_keys _ _ _]
    exact h2

theorem addEdge_src_mem (g : Graph String) (src tgt : String) :
    src ∈ keysOf (addEdge g src tgt) := by
  unfold addEdge
  have h2 : src ∈ keysOf (setdefaultG (setdefaultG g src) tgt) :=
    setdefaultG_keys_mono (setdefaultG_key_mem g src)
  split
  · exact h2
  · unfold keysOf
    rw [show (updateA (setdefaultG (setdefaultG g src) tgt) src
        (fun ws => ws ++ [tgt])).map Prod.fst
        = (setdefaultG (setdefaultG g src) tgt).map Prod.fst from updateA_keys _ _ _]
    exact h2

theorem addEdge_tgt_mem (g : Graph String) (src tgt : String) :
    tgt ∈ keysOf (addEdge g src tgt) := by
  unfold addEdge
  have h2 : tgt ∈ keysOf (setdefaultG (setdefaultG g src) tgt) :=
    setdefaultG_key_mem _ tgt
  split
  · exact h2
  · unfold keysOf
    rw [show (updateA (setdefaultG (setdefaultG g src) tgt) src
        (fun ws => ws ++ [tgt])).map Prod.fst
        = (setdefaultG (setdefaultG g src) tgt).map Prod.fst from updateA_keys _ _ _]
    exact h2

/-- All graphs in the per-variable dict are closed. -/
def AllClosed (gs : Graphs) : Prop := ∀ p ∈ gs, Closed p.2

/-- The C8 target: the variable's graph exists and holds both endpoints. -/
def HoldsNodes (var n₁ n₂ : String) (gs : Graphs) : Prop :=
  ∃ G, findA gs var = some G ∧ n₁ ∈ keysOf G ∧ n₂ ∈ keysOf G

theorem processLine_allClosed {gs : Graphs} (h : AllClosed gs) :
    ∀ line, AllClosed (processLine gs line)
  | none => h
  | some r => by
    unfold processLine
    have h1 : AllClosed (if r.var ∈ gs.map Prod.fst then gs else gs ++ [(r.var, [])]) := by
      split
      · exact h
      · intro p hp
        rcases List.mem_append.mp hp with hp' | hp'
        · exact h p hp'
        · have hpe : p = (r.var, []) := by simpa using hp'
          subst hpe
          intro q hq w hw
          cases hq
    exact fun p hp => updateA_pred r.var _ Closed
      (fun G hG => addEdge_closed hG _ _) _ h1 p hp

theorem processLine_holdsNodes {var n₁ n₂ : String} {gs : Graphs}
    (h : HoldsNodes var n₁ n₂ gs) :
    ∀ line, HoldsNodes var n₁ n₂ (processLine gs line)
  | none => h
  | some r => by
    obtain ⟨G, hfind, h₁, h₂⟩ := h
    unfold processLine
    have h1 : findA (if r.var ∈ gs.map Prod.fst then gs else gs ++ [(r.var, [])]) var
        = some G := by
      split
      · exact hfind
      · exact findA_append_some hfind _
    by_cases hv : r.var = var
    · subst hv
      exact ⟨addEdge G (nodeName r.srcStmt r.srcRef r.var)
          (nodeName r.tgtStmt r.tgtRef r.var),
        findA_updateA_self r.var _ h1,
        addEdge_keys_mono _ _ h₁, addEdge_keys_mono _ _ h₂⟩
    · refine ⟨G, ?_, h₁, h₂⟩
      rw [findA_updateA_ne r.var var _ (fun hc => hv hc.symm)]
      exact h1

theorem processLine_establishes (gs : Graphs) (r : EdgeRec) :
    HoldsNodes r.var (nodeName r.srcStmt r.srcRef r.var)
      (nodeName r.tgtStmt r.tgtRef r.var) (processLine gs (some r)) := by
  unfold processLine
  have h1 : ∃ G₀, findA (if r.var ∈ gs.map Prod.fst then gs
      else gs ++ [(r.var, [])]) r.var = some G₀ := by
    split
    · rename_i hmem
      exact findA_some_of_mem hmem
    · rename_i hmem
      exact ⟨[], findA_append_right (findA_none_of_not_mem hmem) []⟩
  obtain ⟨G₀, hG₀⟩ := h1
  exact ⟨addEdge G₀ (nodeName r.srcStmt r.srcRef r.var)
      (nodeName r.tgtStmt r.tgtRef r.var),
    findA_updateA_self r.var _ hG₀,
    addEdge_src_mem _ _ _, addEdge_tgt_mem _ _ _⟩

theorem foldl_holdsNodes {var n₁ n₂ : String} :
    ∀ (stream : List (Option EdgeRec)) {gs : Graphs},
      HoldsNodes var n₁ n₂ gs →
      HoldsNodes var n₁ n₂ (stream.foldl processLine gs)
  | [], _, h => h
  | line :: rest, gs, h =>
    foldl_holdsNodes rest (processLine_holdsNodes h line)

theorem foldl_establishes {r : EdgeRec} :
    ∀ (stream : List (Option EdgeRec)) (gs : Graphs), some r ∈ stream →
      HoldsNodes r.var (nodeName r.srcStmt r.srcRef r.var)
        (nodeName r.tgtStmt r.tgtRef r.var) (stream.foldl processLine gs)
  | [], _, h => absurd h (List.not_mem_nil _)
  | line :: rest, gs, h => by
    rcases List.mem_cons.mp h with heq | hmem
    · subst heq
      exact foldl_holdsNodes rest (processLine_establishes gs r)
    · exact foldl_establishes rest (processLine gs line) hmem

/-- C8: every node appearing as the source or target of a parsed edge is a
key of that variable's graph, and every successor list of every produced
graph mentions only keys — successor lookups during traversal never miss
(lines 62-63: the two `setdefault` calls). -/
theorem c8_endpoints_are_keys (stream : List (Option EdgeRec)) :
    (∀ r : EdgeRec, some r ∈ stream →
      ∃ G, findA (buildVarGraphs stream) r.var = some G ∧
        nodeName r.srcStmt r.srcRef r.var ∈ keysOf G ∧
        nodeName r.tgtStmt r.tgtRef r.var ∈ keysOf G) ∧
    ∀ p ∈ buildVarGraphs stream, Closed p.2 := by
  constructor
  · intro r hr
    exact foldl_establishes stream [] hr
  · have hfold : ∀ (st : List (Option EdgeRec)) (gs : Graphs), AllClosed gs →
        AllClosed (st.foldl processLine gs) := by
      intro st
      induction st with
      | nil => exact fun gs h => h
      | cons line rest ih =>
        intro gs h
        exact ih _ (processLine_allClosed h line)
    exact hfold stream [] (fun p hp => absurd hp (List.not_mem_nil p))

/-- Witness for C8: a one-line stream. -/
theorem c8_witness :
    ∃ G, findA (buildVarGraphs [some ⟨"S1", "S2", "0", "0", "a"⟩]) "a" = some G ∧
      "S1_r0_a" ∈ keysOf G ∧ "S2_r0_a" ∈ keysOf G := by
  have h := (c8_endpoints_are_keys [some ⟨"S1", "S2", "0", "0", "a"⟩]).1
    ⟨"S1", "S2", "0", "0", "a"⟩ (List.mem_singleton.mpr rfl)
  exact h

/-! ## C9 — determinism of the rendered output -/

/-- C9: the pipeline is a pure function of the parsed input, and the one
place where the runtime's enumeration order is unspecified — iterating the
Python set `set(iters_u) & set(iters_v)` at line 129 — is neutralized by
the `sorted` call: rendering with any enumeration order `enum` of that set
produces byte-for-byte the same lines as the canonical order, so two runs
on identical input render identical output. -/
theorem c9_determinism (enum : List String → List String)
    (henum : ∀ l : List String, (enum l).Perm l)
    (stream : List (Option EdgeRec)) (sd : List (String × Nat))
    (si : List (String × List String)) :
    pipelineRender enum stream sd si = pipelineRender id stream sd si := by
  have hcc : ∀ (si' : List (String × List String)) (u v : String),
      commonCell enum si' u v = commonCell id si' u v := by
    intro si' u v
    unfold commonCell
    rw [show pySort (pySetInter enum (itersOf si' u) (itersOf si' v))
        = pySort (pySetInter id (itersOf si' u) (itersOf si' v)) from
      pySort_eq_of_perm (henum _)]
  have hap : ∀ (si' : List (String × List String)) (nodes C : List String) (M : Mat),
      annotatePairs enum si' nodes C M = annotatePairs id si' nodes C M := by
    intro si' nodes C M
    unfold annotatePairs
    simp only [hcc]
  have haa : ∀ (si' : List (String × List String)) (nodes : List String)
      (comps : List (List String)) (M : Mat),
      annotateAll enum si' nodes comps M = annotateAll id si' nodes comps M := by
    intro si' nodes comps M
    unfold annotateAll
    simp only [hap]
  have hbm : ∀ (g : Graph String) (sd' : List (String × Nat))
      (si' : List (String × List String)),
      buildCycleMatrixE enum g sd' si' = buildCycleMatrixE id g sd' si' := by
    intro g sd' si'
    unfold buildCycleMatrixE
    rcases ht : tarjansSCC g with _ | l
    · rfl
    · show some _ = some _
      dsimp only
      rw [haa]
  have hra : ∀ (gs : Graphs) (sd' : List (String × Nat))
      (si' : List (String × List String)),
      renderAll enum gs sd' si' = renderAll id gs sd' si' := by
    intro gs sd' si'
    induction gs with
    | nil => rfl
    | cons p rest ih =>
      rcases p with ⟨var, g⟩
      unfold renderAll
      rw [hbm, ih]
  unfold pipelineRender
  exact hra _ _ _

/-! ## Support lemmas for the full Tarjan invariant -/

theorem updF_self (f : V → Option Nat) (v : V) (n : Nat) :
    updF f v n v = some n := by
  unfold updF
  simp

theorem updF_ne (f : V → Option Nat) (v x : V) (n : Nat) (h : x ≠ v) :
    updF f v n x = f x := by
  unfold updF
  simp [h]

theorem getN_updF_self (f : V → Option Nat) (v : V) (n : Nat) :
    getN (updF f v n) v = n := by
  unfold getN
  rw [updF_self]
  rfl

theorem getN_updF_ne (f : V → Option Nat) (v x : V) (n : Nat) (h : x ≠ v) :
    getN (updF f v n) x = getN f x := by
  unfold getN
  rw [updF_ne f v x n h]

/-- The number of keys not yet visited. -/
def whiteCount (g : Graph V) (s : TState V) : Nat :=
  ((keysOf g).filter (fun k => (s.ind k).isNone)).length

theorem filter_length_mono {α : Type} (p q : α → Bool)
    (himp : ∀ x, q x = true → p x = true) :
    ∀ l : List α, (l.filter q).length ≤ (l.filter p).length
  | [] => Nat.le_refl 0
  | x :: xs => by
    rcases hq : q x with _ | _
    · rcases hp : p x with _ | _
      · rw [List.filter_cons_of_neg (by simp [hq]), List.filter_cons_of_neg (by simp [hp])]
        exact filter_length_mono p q himp xs
      · rw [List.filter_cons_of_neg (by simp [hq]), List.filter_cons_of_pos hp]
        exact Nat.le_succ_of_le (filter_length_mono p q himp xs)
    · rw [List.filter_cons_of_pos (himp x hq), List.filter_cons_of_pos hq]
      simpa using filter_length_mono p q himp xs

theorem filter_length_lt {α : Type} (p q : α → Bool)
    (himp : ∀ x, q x = true → p x = true) :
    ∀ (l : List α) (a : α), a ∈ l → p a = true → q a = false →
      (l.filter q).length < (l.filter p).length
  | [], a, ha, _, _ => absurd ha (List.not_mem_nil a)
  | x :: xs, a, ha, hpa, hqa => by
    rcases List.mem_cons.mp ha with rfl | ha'
    · rw [List.filter_cons_of_pos hpa, List.filter_cons_of_neg (by simp [hqa])]
      exact Nat.lt_succ_of_le (filter_length_mono p q himp xs)
    · rcases hq : q x with _ | _
      · rcases hp : p x with _ | _
        · rw [List.filter_cons_of_neg (by simp [hq]),
            List.filter_cons_of_neg (by simp [hp])]
          exact filter_length_lt p q himp xs a ha' hpa hqa
        · rw [List.filter_cons_of_neg (by simp [hq]), List.filter_cons_of_pos hp]
          exact Nat.lt_succ_of_lt (filter_length_lt p q himp xs a ha' hpa hqa)
      · rw [List.filter_cons_of_pos (himp x hq), List.filter_cons_of_pos hq]
        simpa using filter_length_lt p q himp xs a ha' hpa hqa

/-- Characterization of the pop loop: it splits the stack at the first
occurrence of `v`, moves that prefix (with `v`) into the component in
order, and removes exactly those nodes from the on-stack set. -/
theorem popLoop_spec {v : V} :
    ∀ {st o c st' o' c'}, popLoop v st o c = some (st', o', c') →
      ∃ pre, st = pre ++ v :: st' ∧ v ∉ pre ∧ c' = c ++ (pre ++ [v]) ∧
        (o.Nodup → o'.Nodup ∧ ∀ x, x ∈ o' ↔ x ∈ o ∧ ¬(x ∈ pre ∨ x = v))
  | [], _, _, _, _, _, h => by cases h
  | w :: rest, o, c, st', o', c', h => by
    rw [popLoop] at h
    split at h
    · rename_i heq
      subst heq
      cases h
      refine ⟨[], rfl, List.not_mem_nil w, by simp, fun hnd => ⟨hnd.erase w, fun x => ?_⟩⟩
      constructor
      · intro hx
        have hxo : x ∈ o := List.erase_subset w o hx
        refine ⟨hxo, ?_⟩
        rintro (hc | rfl)
        · cases hc
        · exact (List.Nodup.not_mem_erase hnd) hx
      · rintro ⟨hxo, hnot⟩
        have hxw : x ≠ w := fun hc => hnot (Or.inr hc)
        exact (List.mem_erase_of_ne hxw).mpr hxo
    · rename_i hne
      obtain ⟨pre, hst, hvp, hc, ho⟩ := popLoop_spec h
      refine ⟨w :: pre, by rw [hst]; rfl, ?_, by rw [hc]; simp, fun hnd => ?_⟩
      · intro hc2
        rcases List.mem_cons.mp hc2 with hc3 | hc3
        · exact hne hc3.symm
        · exact hvp hc3
      · obtain ⟨hnd', hiff⟩ := ho (hnd.erase w)
        refine ⟨hnd', fun x => ?_⟩
        rw [hiff x]
        constructor
        · rintro ⟨hxe, hnot⟩
          have hxw : x ≠ w := by
            rintro rfl
            exact (List.Nodup.not_mem_erase hnd) hxe
          refine ⟨(List.mem_erase_of_ne hxw).mp hxe, ?_⟩
          rintro (hc2 | rfl)
          · rcases List.mem_cons.mp hc2 with hc3 | hc3
            · exact hxw hc3
            · exact hnot (Or.inl hc3)
          · exact hnot (Or.inr rfl)
        · rintro ⟨hxo, hnot⟩
          have hxw : x ≠ w := fun hc => hnot (Or.inl (hc ▸ List.mem_cons_self w pre))
          refine ⟨(List.mem_erase_of_ne hxw).mpr hxo, ?_⟩
          rintro (hc2 | rfl)
          · exact hnot (Or.inl (List.mem_cons_of_mem w hc2))
          · exact hnot (Or.inr rfl)

/-- Along the grey chain, every grey node reaches the innermost one. -/
theorem grey_reach_head {g : Graph V} :
    ∀ {γ : List V}, List.Chain' (fun a b => edgeRel g b a) γ →
      ∀ x ∈ γ, ∀ u, γ.head? = some u → Reach g x u
  | [], _, x, hx, _, _ => absurd hx (List.not_mem_nil x)
  | a :: rest, hch, x, hx, u, hu => by
    have hua : u = a := by
      rw [List.head?_cons] at hu
      exact (Option.some.inj hu).symm
    subst hua
    rcases List.mem_cons.mp hx with rfl | hx'
    · exact Reach.refl x
    · obtain ⟨hhead, hch'⟩ := List.chain'_cons'.mp hch
      rcases hrest : rest with _ | ⟨b, rest'⟩
      · rw [hrest] at hx'
        cases hx'
      · have hedge : edgeRel g b u := by
          have hb := hhead b (by rw [hrest]; rfl)
          exact hb
        have hreach : Reach g x b := by
          rw [hrest] at hch' hx'
          exact grey_reach_head hch' x hx' b rfl
        exact hreach.trans (Reach.single hedge)

/-- The full invariant of the Tarjan machine state, relative to the list
`γ` of grey nodes: the active recursion path, innermost caller first.
`getN s.ind x` is `indices[x]` and `getN s.low x` is `lowlink[x]`. -/
structure Inv (g : Graph V) (γ : List V) (s : TState V) : Prop where
  stackNd : s.stack.Nodup
  onStackIff : ∀ x : V, x ∈ s.onStack ↔ x ∈ s.stack
  onStackNd : s.onStack.Nodup
  stackVis : ∀ x ∈ s.stack, (s.ind x).isSome = true
  sccsVis : ∀ C ∈ s.sccs, ∀ x ∈ C, (s.ind x).isSome = true
  visCover : ∀ x : V, (s.ind x).isSome = true → x ∈ s.stack ∨ ∃ C ∈ s.sccs, x ∈ C
  disj : (s.sccs.flatten ++ s.stack).Nodup
  sccsNe : ∀ C ∈ s.sccs, C ≠ []
  indLt : ∀ x : V, (s.ind x).isSome = true → getN s.ind x < s.idx
  indInj : ∀ x y : V, (s.ind x).isSome = true → (s.ind y).isSome = true →
    getN s.ind x = getN s.ind y → x = y
  lowDom : ∀ x : V, (s.low x).isSome = (s.ind x).isSome
  lowLe : ∀ x : V, (s.ind x).isSome = true → getN s.low x ≤ getN s.ind x
  domKeys : ∀ x : V, (s.ind x).isSome = true → x ∈ keysOf g
  stackSorted : s.stack.Pairwise (fun a b => getN s.ind b < getN s.ind a)
  emptyNoGrey : γ = [] → s.stack = []
  greySub : ∀ u ∈ γ, u ∈ s.stack
  greyChain : List.Chain' (fun a b => edgeRel g b a) γ
  greySorted : γ.Pairwise (fun a b => getN s.ind b < getN s.ind a)
  blackLow : ∀ x ∈ s.stack, x ∉ γ → getN s.low x < getN s.ind x
  blackSucc : ∀ x : V, (s.ind x).isSome = true → x ∉ γ →
    ∀ y : V, edgeRel g x y → (s.ind y).isSome = true
  blackEdgeLow : ∀ x : V, (s.ind x).isSome = true → x ∉ γ →
    ∀ y : V, edgeRel g x y → y ∈ s.stack → getN s.low x ≤ getN s.ind y
  chainUp : ∀ x ∈ s.stack, ∀ y ∈ s.stack, getN s.ind x ≤ getN s.ind y → Reach g x y
  lowWitness : ∀ x ∈ s.stack, ∃ y ∈ s.stack, getN s.ind y = getN s.low x ∧ Reach g x y
  sccsMax : ∀ C ∈ s.sccs, ∀ a ∈ C, ∀ y : V, (y ∈ C ↔ (Reach g a y ∧ Reach g y a))

/-- Every node on the stack reaches the innermost grey node. -/
theorem Inv.stack_reach_grey {g : Graph V} {γ : List V} {s : TState V}
    (inv : Inv g γ s) {u : V} (hu : γ.head? = some u) :
    ∀ x ∈ s.stack, Reach g x u := by
  have H : ∀ n : Nat, ∀ x ∈ s.stack, getN s.ind x = n → Reach g x u := by
    intro n
    induction n using Nat.strong_induction_on with
    | _ n ih =>
      intro x hx hxn
      by_cases hγ : x ∈ γ
      · exact grey_reach_head inv.greyChain x hγ u hu
      · obtain ⟨y, hy, hiy, hreach⟩ := inv.lowWitness x hx
        have hlt : getN s.ind y < n := by
          rw [hiy, ← hxn]
          exact inv.blackLow x hx hγ
        exact hreach.trans (ih _ hlt y hy rfl)
  exact fun x hx => H (getN s.ind x) x hx rfl

/-- The innermost grey node has the largest index among grey nodes. -/
theorem Inv.grey_head_max {g : Graph V} {γ : List V} {s : TState V}
    (inv : Inv g γ s) {u : V} (hu : γ.head? = some u) :
    ∀ w ∈ γ, w ≠ u → getN s.ind w < getN s.ind u := by
  rcases γ with _ | ⟨a, rest⟩
  · intro w hw
    exact absurd hw (List.not_mem_nil w)
  · have hua : u = a := by
      rw [List.head?_cons] at hu
      exact (Option.some.inj hu).symm
    subst hua
    intro w hw hne
    rcases List.mem_cons.mp hw with rfl | hw'
    · exact absurd rfl hne
    · exact (List.pairwise_cons.mp inv.greySorted).1 w hw'

theorem updF_isSome {f : V → Option Nat} {v x : V} {n : Nat} :
    ((updF f v n) x).isSome = true ↔ (x = v ∨ (f x).isSome = true) := by
  unfold updF
  by_cases hx : x = v
  · simp [hx]
  · simp [hx]

/-- Lines 80-85 re-establish the invariant with `v` pushed as the new
innermost grey node. -/
theorem visit_inv {g : Graph V} {γ : List V} {s : TState V} {v : V}
    (inv : Inv g γ s) (hkey : v ∈ keysOf g) (hwhite : s.ind v = none)
    (hparent : ∀ u, γ.head? = some u → edgeRel g u v) :
    Inv g (v :: γ) (visit v s) := by
  have hvstack : v ∉ s.stack := fun hc => by
    have hvis := inv.stackVis v hc
    rw [hwhite] at hvis
    cases hvis
  have hvsccs : ∀ C ∈ s.sccs, v ∉ C := fun C hC hc => by
    have hvis := inv.sccsVis C hC v hc
    rw [hwhite] at hvis
    cases hvis
  have hvγ : v ∉ γ := fun hc => hvstack (inv.greySub v hc)
  have hgetV : getN (visit v s).ind v = s.idx := getN_updF_self s.ind v s.idx
  have hgetNe : ∀ x : V, x ≠ v → getN (visit v s).ind x = getN s.ind x :=
    fun x hx => getN_updF_ne s.ind v x s.idx hx
  have hlowV : getN (visit v s).low v = s.idx := getN_updF_self s.low v s.idx
  have hlowNe : ∀ x : V, x ≠ v → getN (visit v s).low x = getN s.low x :=
    fun x hx => getN_updF_ne s.low v x s.idx hx
  have hindNe : ∀ x : V, x ≠ v → (visit v s).ind x = s.ind x :=
    fun x hx => updF_ne s.ind v x s.idx hx
  have hsome : ∀ x : V, ((visit v s).ind x).isSome = true ↔
      (x = v ∨ (s.ind x).isSome = true) := fun x => updF_isSome
  have hneOfStack : ∀ x ∈ s.stack, x ≠ v := fun x hx hc => hvstack (hc ▸ hx)
  refine ⟨?_, ?_, ?_, ?_, ?_, ?_, ?_, ?_, ?_, ?_, ?_, ?_, ?_, ?_, ?_, ?_, ?_,
    ?_, ?_, ?_, ?_, ?_, ?_, ?_⟩
  · exact List.nodup_cons.mpr ⟨hvstack, inv.stackNd⟩
  · intro x
    show x ∈ v :: s.onStack ↔ x ∈ v :: s.stack
    simp [List.mem_cons, inv.onStackIff x]
  · exact List.nodup_cons.mpr
      ⟨fun hc => hvstack ((inv.onStackIff v).mp hc), inv.onStackNd⟩
  · intro x hx
    rcases List.mem_cons.mp hx with rfl | hx'
    · rw [(hsome x).mpr (Or.inl rfl)]
    · exact (hsome x).mpr (Or.inr (inv.stackVis x hx'))
  · intro C hC x hx
    exact (hsome x).mpr (Or.inr (inv.sccsVis C hC x hx))
  · intro x hx
    by_cases hxv : x = v
    · exact Or.inl (hxv ▸ List.mem_cons_self v s.stack)
    · rw [hsome x] at hx
      rcases hx with rfl | hx'
      · exact absurd rfl hxv
      · rcases inv.visCover x hx' with hst | hsc
        · exact Or.inl (List.mem_cons_of_mem v hst)
        · exact Or.inr hsc
  · show (s.sccs.flatten ++ v :: s.stack).Nodup
    rw [List.nodup_middle]
    refine List.nodup_cons.mpr ⟨?_, inv.disj⟩
    intro hc
    rcases List.mem_append.mp hc with hc' | hc'
    · obtain ⟨C, hC, hvC⟩ := List.mem_flatten.mp hc'
      exact hvsccs C hC hvC
    · exact hvstack hc'
  · exact inv.sccsNe
  · intro x hx
    show getN (visit v s).ind x < s.idx + 1
    by_cases hxv : x = v
    · rw [hxv, hgetV]
      exact Nat.lt_succ_self s.idx
    · rw [hgetNe x hxv]
      rw [hsome x] at hx
      rcases hx with rfl | hx'
      · exact absurd rfl hxv
      · exact Nat.lt_succ_of_lt (inv.indLt x hx')
  · intro x y hx hy hxy
    by_cases hxv : x = v
    · by_cases hyv : y = v
      · rw [hxv, hyv]
      · rw [hsome y] at hy
        rcases hy with rfl | hy'
        · exact absurd rfl hyv
        · rw [hxv, hgetV, hgetNe y hyv] at hxy
          exact absurd hxy.symm (Nat.ne_of_lt (inv.indLt y hy'))
    · by_cases hyv : y = v
      · rw [hsome x] at hx
        rcases hx with rfl | hx'
        · exact absurd rfl hxv
        · rw [hyv, hgetV, hgetNe x hxv] at hxy
          exact absurd hxy (Nat.ne_of_lt (inv.indLt x hx'))
      · rw [hsome x] at hx
        rw [hsome y] at hy
        rcases hx with rfl | hx'
        · exact absurd rfl hxv
        · rcases hy with rfl | hy'
          · exact absurd rfl hyv
          · rw [hgetNe x hxv, hgetNe y hyv] at hxy
            exact inv.indInj x y hx' hy' hxy
  · intro x
    by_cases hxv : x = v
    · rw [hxv]
      show ((updF s.low v s.idx) v).isSome = ((updF s.ind v s.idx) v).isSome
      rw [updF_self, updF_self]
    · show ((updF s.low v s.idx) x).isSome = ((updF s.ind v s.idx) x).isSome
      rw [updF_ne s.low v x s.idx hxv, updF_ne s.ind v x s.idx hxv]
      exact inv.lowDom x
  · intro x hx
    by_cases hxv : x = v
    · rw [hxv, hgetV, hlowV]
    · rw [hgetNe x hxv, hlowNe x hxv]
      rw [hsome x] at hx
      rcases hx with rfl | hx'
      · exact absurd rfl hxv
      · exact inv.lowLe x hx'
  · intro x hx
    by_cases hxv : x = v
    · exact hxv ▸ hkey
    · rw [hsome x] at hx
      rcases hx with rfl | hx'
      · exact absurd rfl hxv
      · exact inv.domKeys x hx'
  · show ((v :: s.stack).Pairwise fun a b => getN (visit v s).ind b < getN (visit v s).ind a)
    rw [List.pairwise_cons]
    constructor
    · intro y hy
      rw [hgetNe y (hneOfStack y hy), hgetV]
      exact inv.indLt y (inv.stackVis y hy)
    · refine List.Pairwise.imp_of_mem ?_ inv.stackSorted
      intro a b ha hb hab
      rw [hgetNe a (hneOfStack a ha), hgetNe b (hneOfStack b hb)]
      exact hab
  · exact fun h => nomatch h
  · intro u hu
    rcases List.mem_cons.mp hu with rfl | hu'
    · exact List.mem_cons_self u s.stack
    · exact List.mem_cons_of_mem v (inv.greySub u hu')
  · rw [List.chain'_cons']
    exact ⟨fun u hu => hparent u hu, inv.greyChain⟩
  · rw [List.pairwise_cons]
    constructor
    · intro u hu
      have huv : u ≠ v := fun hc => hvγ (hc ▸ hu)
      rw [hgetNe u huv, hgetV]
      exact inv.indLt u (inv.stackVis u (inv.greySub u hu))
    · refine List.Pairwise.imp_of_mem ?_ inv.greySorted
      intro a b ha hb hab
      have hav : a ≠ v := fun hc => hvγ (hc ▸ ha)
      have hbv : b ≠ v := fun hc => hvγ (hc ▸ hb)
      rw [hgetNe a hav, hgetNe b hbv]
      exact hab
  · intro x hx hxγ
    rcases List.mem_cons.mp hx with rfl | hx'
    · exact absurd (List.mem_cons_self x γ) hxγ
    · have hxv : x ≠ v := hneOfStack x hx'
      rw [hgetNe x hxv, hlowNe x hxv]
      exact inv.blackLow x hx' (fun hc => hxγ (List.mem_cons_of_mem v hc))
  · intro x hx hxγ y hy
    have hxv : x ≠ v := fun hc => hxγ (hc ▸ List.mem_cons_self v γ)
    rw [hsome x] at hx
    rcases hx with rfl | hx'
    · exact absurd rfl hxv
    · exact (hsome y).mpr (Or.inr (inv.blackSucc x hx'
        (fun hc => hxγ (List.mem_cons_of_mem v hc)) y hy))
  · intro x hx hxγ y hy hystack
    have hxv : x ≠ v := fun hc => hxγ (hc ▸ List.mem_cons_self v γ)
    rw [hsome x] at hx
    rcases hx with rfl | hx'
    · exact absurd rfl hxv
    · have hxblack : x ∉ γ := fun hc => hxγ (List.mem_cons_of_mem v hc)
      rcases List.mem_cons.mp hystack with rfl | hy'
      · have hvis := inv.blackSucc x hx' hxblack y hy
        rw [hwhite] at hvis
        cases hvis
      · have hyv : y ≠ v := hneOfStack y hy'
        rw [hlowNe x hxv, hgetNe y hyv]
        exact inv.blackEdgeLow x hx' hxblack y hy hy'
  · intro x hx y hy hxy
    rcases List.mem_cons.mp hy with rfl | hy'
    · rcases List.mem_cons.mp hx with rfl | hx'
      · exact Reach.refl x
      · rcases hγ : γ with _ | ⟨u, γ'⟩
        · rw [inv.emptyNoGrey hγ] at hx'
          cases hx'
        · have hreach : Reach g x u :=
            inv.stack_reach_grey (by rw [hγ]; rfl) x hx'
          exact hreach.trans (Reach.single (hparent u (by rw [hγ]; rfl)))
    · rcases List.mem_cons.mp hx with rfl | hx'
      · rw [hgetV, hgetNe y (hneOfStack y hy')] at hxy
        exact absurd hxy (Nat.not_le_of_lt (inv.indLt y (inv.stackVis y hy')))
      · rw [hgetNe x (hneOfStack x hx'), hgetNe y (hneOfStack y hy')] at hxy
        exact inv.chainUp x hx' y hy' hxy
  · intro x hx
    rcases List.mem_cons.mp hx with rfl | hx'
    · exact ⟨x, List.mem_cons_self x s.stack, by rw [hgetV, hlowV], Reach.refl x⟩
    · obtain ⟨y, hy, hiy, hreach⟩ := inv.lowWitness x hx'
      refine ⟨y, List.mem_cons_of_mem v hy, ?_, hreach⟩
      rw [hgetNe y (hneOfStack y hy), hlowNe x (hneOfStack x hx')]
      exact hiy
  · exact inv.sccsMax

/-- Precondition of a `dfs` call on `v` with grey path `γ`. -/
structure DfsPre (g : Graph V) (γ : List V) (fuel : Nat) (v : V)
    (s : TState V) : Prop where
  inv : Inv g γ s
  vKey : v ∈ keysOf g
  vWhite : s.ind v = none
  parentEdge : ∀ u, γ.head? = some u → edgeRel g u v
  fuelOk : whiteCount g s ≤ fuel

/-- Postcondition of a completed `dfs` call on `v`. -/
structure DfsPost (g : Graph V) (γ : List V) (v : V) (s s' : TState V) : Prop where
  inv : Inv g γ s'
  indV : s'.ind v = some s.idx
  idxMono : s.idx < s'.idx
  indExt : ∀ x : V, (s.ind x).isSome = true → s'.ind x = s.ind x
  lowFroz : ∀ x : V, (s.ind x).isSome = true → s'.low x = s.low x
  newVis : ∀ x : V, s.ind x = none → (s'.ind x).isSome = true → s.idx ≤ getN s'.ind x
  stackExt : ∃ new, s'.stack = new ++ s.stack ∧ ∀ x ∈ new, s.ind x = none
  newLow : ∀ x ∈ s'.stack, x ∉ s.stack → getN s'.low v ≤ getN s'.low x
  popDichotomy : (getN s'.low v = s.idx ∧ v ∉ s'.stack ∧ s'.stack = s.stack) ∨
    (getN s'.low v < s.idx ∧ v ∈ s'.stack)
  whiteMono : ∀ x : V, s'.ind x = none → s.ind x = none
  sccsExt : ∃ ns, s'.sccs = s.sccs ++ ns

/-- Precondition of the successor loop of `v`, with the already-processed
prefix `done` and the remaining suffix `ws`. -/
structure ProcPre (g : Graph V) (γ : List V) (fuel : Nat) (v : V)
    (done ws : List V) (s : TState V) : Prop where
  inv : Inv g (v :: γ) s
  succsEq : succsOf? g v = some (done ++ ws)
  fuelOk : whiteCount g s ≤ fuel
  doneVis : ∀ w ∈ done, (s.ind w).isSome = true
  doneLow : ∀ w ∈ done, w ∈ s.stack → getN s.low v ≤ getN s.ind w
  aboveLow : ∀ x ∈ s.stack, getN s.ind v < getN s.ind x →
    getN s.low v ≤ getN s.low x

/-- Postcondition of the successor loop of `v` over the suffix `ws`. -/
structure ProcPost (g : Graph V) (γ : List V) (v : V) (ws : List V)
    (s s' : TState V) : Prop where
  inv : Inv g (v :: γ) s'
  idxMono : s.idx ≤ s'.idx
  indExt : ∀ x : V, (s.ind x).isSome = true → s'.ind x = s.ind x
  lowFrozOld : ∀ x : V, x ≠ v → (s.ind x).isSome = true → s'.low x = s.low x
  lowVmono : getN s'.low v ≤ getN s.low v
  vStack : v ∈ s'.stack
  stackExt : ∃ new, s'.stack = new ++ s.stack ∧ ∀ x ∈ new, s.ind x = none
  newVis : ∀ x : V, s.ind x = none → (s'.ind x).isSome = true → s.idx ≤ getN s'.ind x
  aboveLowFinal : ∀ x ∈ s'.stack, getN s'.ind v < getN s'.ind x →
    getN s'.low v ≤ getN s'.low x
  wsVis : ∀ w ∈ ws, (s'.ind w).isSome = true
  wsLow : ∀ w ∈ ws, w ∈ s'.stack → getN s'.low v ≤ getN s'.ind w
  whiteMono : ∀ x : V, s'.ind x = none → s.ind x = none
  sccsExt : ∃ ns, s'.sccs = s.sccs ++ ns

theorem succsOf?_some_of_mem_keys {g : Graph V} {v : V} (h : v ∈ keysOf g) :
    ∃ ws, succsOf? g v = some ws := by
  rcases hf : g.find? (fun p => decide (p.1 = v)) with _ | p
  · obtain ⟨p, hp, hpk⟩ := List.mem_map.mp h
    have hnone := List.find?_eq_none.mp hf p hp
    exact absurd (decide_eq_true hpk) hnone
  · refine ⟨p.2, ?_⟩
    unfold succsOf?
    rw [hf]
    rfl

theorem edge_of_succs {g : Graph V} {v w : V} {ws : List V}
    (h : succsOf? g v = some ws) (hw : w ∈ ws) : edgeRel g v w := ⟨ws, h, hw⟩

theorem whiteCount_pos {g : Graph V} {s : TState V} {v : V}
    (hk : v ∈ keysOf g) (hw : s.ind v = none) : 0 < whiteCount g s := by
  unfold whiteCount
  have hmem : v ∈ (keysOf g).filter (fun k => (s.ind k).isNone) :=
    List.mem_filter.mpr ⟨hk, by rw [hw]; rfl⟩
  exact List.length_pos.mpr (fun hc => by rw [hc] at hmem; cases hmem)

theorem whiteCount_visit_lt {g : Graph V} {s : TState V} {v : V}
    (hk : v ∈ keysOf g) (hw : s.ind v = none) :
    whiteCount g (visit v s) < whiteCount g s := by
  refine filter_length_lt _ _ ?_ (keysOf g) v hk (by rw [hw]; rfl) ?_
  · intro x hx
    by_cases hxv : x = v
    · have hx' : (updF s.ind v s.idx v).isNone = true := hxv ▸ hx
      rw [updF_self] at hx'
      cases hx'
    · have hx' : (updF s.ind v s.idx x).isNone = true := hx
      rw [updF_ne s.ind v x s.idx hxv] at hx'
      exact hx'
  · show (updF s.ind v s.idx v).isNone = false
    rw [updF_self]
    rfl

theorem whiteCount_mono {g : Graph V} {s s' : TState V}
    (h : ∀ x : V, s'.ind x = none → s.ind x = none) :
    whiteCount g s' ≤ whiteCount g s := by
  refine filter_length_mono _ _ ?_ (keysOf g)
  intro x hx
  have hx' : s'.ind x = none := by
    rcases hh : s'.ind x with _ | n
    · rfl
    · rw [hh] at hx
      cases hx
  rw [h x hx']
  rfl

/-- Lowering `lowlink[v]` preserves the invariant as long as a stack
witness for the new value is supplied. -/
theorem setLow_inv {g : Graph V} {γ : List V} {s : TState V} {v : V} {n : Nat}
    (inv : Inv g (v :: γ) s) (hle : n ≤ getN s.low v)
    (hwit : ∃ y ∈ s.stack, getN s.ind y = n ∧ Reach g v y) :
    Inv g (v :: γ) (setLow s v n) := by
  have hvstack : v ∈ s.stack := inv.greySub v (List.mem_cons_self v γ)
  have hvvis : (s.ind v).isSome = true := inv.stackVis v hvstack
  have hlowV : getN (setLow s v n).low v = n := getN_updF_self s.low v n
  have hlowNe : ∀ x : V, x ≠ v → getN (setLow s v n).low x = getN s.low x :=
    fun x hx => getN_updF_ne s.low v x n hx
  refine ⟨inv.stackNd, inv.onStackIff, inv.onStackNd, inv.stackVis, inv.sccsVis,
    inv.visCover, inv.disj, inv.sccsNe, inv.indLt, inv.indInj, ?_, ?_,
    inv.domKeys, inv.stackSorted, inv.emptyNoGrey, inv.greySub, inv.greyChain,
    inv.greySorted, ?_, inv.blackSucc, ?_, inv.chainUp, ?_, inv.sccsMax⟩
  · intro x
    by_cases hxv : x = v
    · subst hxv
      show ((updF s.low x n) x).isSome = (s.ind x).isSome
      rw [updF_self, hvvis]
      rfl
    · show ((updF s.low v n) x).isSome = (s.ind x).isSome
      rw [updF_ne s.low v x n hxv]
      exact inv.lowDom x
  · intro x hx
    by_cases hxv : x = v
    · subst hxv
      rw [hlowV]
      exact Nat.le_trans hle (inv.lowLe x hx)
    · rw [hlowNe x hxv]
      exact inv.lowLe x hx
  · intro x hx hxγ
    have hxv : x ≠ v := fun hc => hxγ (hc ▸ List.mem_cons_self v γ)
    rw [hlowNe x hxv]
    exact inv.blackLow x hx hxγ
  · intro x hx hxγ y hy hystack
    have hxv : x ≠ v := fun hc => hxγ (hc ▸ List.mem_cons_self v γ)
    rw [hlowNe x hxv]
    exact inv.blackEdgeLow x hx hxγ y hy hystack
  · intro x hx
    by_cases hxv : x = v
    · subst hxv
      obtain ⟨y, hy, hiy, hr⟩ := hwit
      exact ⟨y, hy, by rw [hlowV]; exact hiy, hr⟩
    · obtain ⟨y, hy, hiy, hr⟩ := inv.lowWitness x hx
      exact ⟨y, hy, by rw [hlowNe x hxv]; exact hiy, hr⟩

theorem processSuccs_nil_eq (g : Graph V) (fuel : Nat) (v : V) (s : TState V) :
    processSuccs g fuel v [] s = some s := by
  rw [processSuccs, processSuccsH]

theorem processSuccs_cons_white {g : Graph V} {fuel : Nat} {v w : V}
    {ws : List V} {s s₂ : TState V} (hw : s.ind w = none)
    (hd : dfs g fuel w s = some s₂) :
    processSuccs g fuel v (w :: ws) s =
      processSuccs g fuel v ws
        (setLow s₂ v (min (getN s₂.low v) (getN s₂.low w))) := by
  rw [processSuccs, processSuccsH, hw]
  simp only [Option.isNone_none, if_true]
  rw [hd]
  rfl

theorem processSuccs_cons_onStack {g : Graph V} {fuel : Nat} {v w : V}
    {ws : List V} {s : TState V} {iw : Nat} (hw : s.ind w = some iw)
    (hmem : w ∈ s.onStack) :
    processSuccs g fuel v (w :: ws) s =
      processSuccs g fuel v ws
        (setLow s v (min (getN s.low v) (getN s.ind w))) := by
  rw [processSuccs, processSuccsH, hw]
  simp only [Option.isNone_some, Bool.false_eq_true, if_false, if_pos hmem]
  rfl

theorem processSuccs_cons_skip {g : Graph V} {fuel : Nat} {v w : V}
    {ws : List V} {s : TState V} {iw : Nat} (hw : s.ind w = some iw)
    (hmem : w ∉ s.onStack) :
    processSuccs g fuel v (w :: ws) s = processSuccs g fuel v ws s := by
  rw [processSuccs, processSuccsH, hw]
  simp only [Option.isNone_some, Bool.false_eq_true, if_false, if_neg hmem]
  rfl

/-- One pass of the successor loop satisfies its contract, assuming the
`dfs` contract at the same fuel. -/
theorem proc_step {g : Graph V} (hg : Closed g) (fuel : Nat)
    (IH : ∀ γ v s, DfsPre g γ fuel v s →
      ∃ s', dfs g fuel v s = some s' ∧ DfsPost g γ v s s') :
    ∀ γ v done ws s, ProcPre g γ fuel v done ws s →
      ∃ s', processSuccs g fuel v ws s = some s' ∧ ProcPost g γ v ws s s' := by
  intro γ v done ws
  induction ws generalizing done with
  | nil =>
    intro s pre
    refine ⟨s, processSuccs_nil_eq g fuel v s, ?_⟩
    exact
      { inv := pre.inv
        idxMono := Nat.le_refl _
        indExt := fun x _ => rfl
        lowFrozOld := fun x _ _ => rfl
        lowVmono := Nat.le_refl _
        vStack := pre.inv.greySub v (List.mem_cons_self v γ)
        stackExt := ⟨[], rfl, fun x hx => absurd hx (List.not_mem_nil x)⟩
        newVis := fun x hx hx' => absurd hx' (by rw [hx]; exact fun h => nomatch h)
        aboveLowFinal := pre.aboveLow
        wsVis := fun w hw => absurd hw (List.not_mem_nil w)
        wsLow := fun w hw => absurd hw (List.not_mem_nil w)
        whiteMono := fun x h => h
        sccsExt := ⟨[], (List.append_nil _).symm⟩ }
  | cons w ws ihws =>
    intro s pre
    have hvstack : v ∈ s.stack := pre.inv.greySub v (List.mem_cons_self v γ)
    have hvvis : (s.ind v).isSome = true := pre.inv.stackVis v hvstack
    have hwmem : w ∈ done ++ w :: ws :=
      List.mem_append_right done (List.mem_cons_self w ws)
    have hedgevw : edgeRel g v w := edge_of_succs pre.succsEq hwmem
    have hsuccsEq' : succsOf? g v = some ((done ++ [w]) ++ ws) := by
      rw [List.append_assoc]
      exact pre.succsEq
    rcases hw : s.ind w with _ | iw
    · -- w unvisited: recursive dfs call
      have preW : DfsPre g (v :: γ) fuel w s :=
        { inv := pre.inv
          vKey := succsOf_closed hg pre.succsEq w hwmem
          vWhite := hw
          parentEdge := fun u hu => by
            have hu' : some v = some u := hu
            exact (Option.some.inj hu') ▸ hedgevw
          fuelOk := pre.fuelOk }
      obtain ⟨s₂, hdfs, post₂⟩ := IH (v :: γ) w s preW
      have hvvis₂ : (s₂.ind v).isSome = true := by
        rw [post₂.indExt v hvvis]
        exact hvvis
      have hlowv₂ : s₂.low v = s.low v := post₂.lowFroz v hvvis
      have hindv₂ : s₂.ind v = s.ind v := post₂.indExt v hvvis
      have hvstack₂ : v ∈ s₂.stack := by
        obtain ⟨new, hnew, -⟩ := post₂.stackExt
        rw [hnew]
        exact List.mem_append_right new hvstack
      -- the state after the lowlink update of line 90
      have hle : min (getN s₂.low v) (getN s₂.low w) ≤ getN s₂.low v :=
        Nat.min_le_left _ _
      have hwit : ∃ y ∈ s₂.stack,
          getN s₂.ind y = min (getN s₂.low v) (getN s₂.low w) ∧ Reach g v y := by
        rcases Nat.le_total (getN s₂.low v) (getN s₂.low w) with hc | hc
        · obtain ⟨y, hy, hiy, hr⟩ := post₂.inv.lowWitness v hvstack₂
          exact ⟨y, hy, by rw [Nat.min_eq_left hc]; exact hiy, hr⟩
        · rcases post₂.popDichotomy with ⟨heq, -, -⟩ | ⟨-, hwstack₂⟩
          · -- impossible: lowlink[w] = s.idx would exceed lowlink[v]
            exfalso
            have h1 : getN s₂.low v ≤ getN s₂.ind v := by
              refine post₂.inv.lowLe v hvvis₂
            have h2 : getN s₂.ind v < s.idx := by
              have := pre.inv.indLt v hvvis
              unfold getN
              rw [hindv₂]
              exact this
            rw [heq] at hc
            exact Nat.lt_irrefl s.idx (Nat.lt_of_le_of_lt (Nat.le_trans hc h1) h2)
          · obtain ⟨y, hy, hiy, hr⟩ := post₂.inv.lowWitness w hwstack₂
            refine ⟨y, hy, by rw [Nat.min_eq_right hc]; exact hiy,
              (Reach.single hedgevw).trans hr⟩
      have inv₃ : Inv g (v :: γ)
          (setLow s₂ v (min (getN s₂.low v) (getN s₂.low w))) :=
        setLow_inv post₂.inv hle hwit
      have hlow₃v : getN (setLow s₂ v (min (getN s₂.low v) (getN s₂.low w))).low v
          = min (getN s₂.low v) (getN s₂.low w) := getN_updF_self _ _ _
      have hlow₃ne : ∀ x : V, x ≠ v →
          (setLow s₂ v (min (getN s₂.low v) (getN s₂.low w))).low x = s₂.low x :=
        fun x hx => updF_ne s₂.low v x _ hx
      set s₃ := setLow s₂ v (min (getN s₂.low v) (getN s₂.low w)) with hs₃
      have hind₃ : s₃.ind = s₂.ind := rfl
      have hstack₃ : s₃.stack = s₂.stack := rfl
      have hsccs₃ : s₃.sccs = s₂.sccs := rfl
      have hidx₃ : s₃.idx = s₂.idx := rfl
      have pre₃ : ProcPre g γ fuel v (done ++ [w]) ws s₃ :=
        { inv := inv₃
          succsEq := hsuccsEq'
          fuelOk := Nat.le_trans (whiteCount_mono post₂.whiteMono) pre.fuelOk
          doneVis := by
            intro w' hw'
            rcases List.mem_append.mp hw' with hw'' | hw''
            · show (s₂.ind w').isSome = true
              rw [post₂.indExt w' (pre.doneVis w' hw'')]
              exact pre.doneVis w' hw''
            · have hww : w' = w := by simpa using hw''
              subst hww
              show (s₂.ind w').isSome = true
              rw [post₂.indV]
              rfl
          doneLow := by
            intro w' hw' hstack'
            rw [hstack₃] at hstack'
            rcases List.mem_append.mp hw' with hw'' | hw''
            · -- an old processed successor: it was already on the old stack
              have hvis' : (s.ind w').isSome = true := pre.doneVis w' hw''
              have hw's : w' ∈ s.stack := by
                obtain ⟨new, hnew, hwhite⟩ := post₂.stackExt
                rw [hnew] at hstack'
                rcases List.mem_append.mp hstack' with hn | hn
                · have := hwhite w' hn
                  rw [this] at hvis'
                  cases hvis'
                · exact hn
              have h1 : getN s.low v ≤ getN s.ind w' := pre.doneLow w' hw'' hw's
              show getN s₃.low v ≤ getN s₃.ind w'
              rw [hlow₃v]
              have h2 : getN s₃.ind w' = getN s.ind w' := by
                unfold getN
                rw [hind₃, post₂.indExt w' hvis']
              rw [h2]
              refine Nat.le_trans (Nat.le_trans (Nat.min_le_left _ _) ?_) h1
              unfold getN
              rw [hlowv₂]
            · have hww : w' = w := by simpa using hw''
              subst hww
              show getN s₃.low v ≤ getN s₃.ind w'
              rw [hlow₃v]
              have h2 : getN s₃.ind w' = getN s₂.ind w' := rfl
              rw [h2]
              exact Nat.le_trans (Nat.min_le_right _ _)
                (post₂.inv.lowLe w' (by rw [post₂.indV]; rfl))
          aboveLow := by
            intro x hx hgt
            rw [hstack₃] at hx
            have hxv : x ≠ v := by
              intro hc
              subst hc
              exact Nat.lt_irrefl _ hgt
            have hgt' : getN s₂.ind v < getN s₂.ind x := hgt
            show getN s₃.low v ≤ getN s₃.low x
            rw [hlow₃v]
            have hx3 : getN s₃.low x = getN s₂.low x := by
              unfold getN
              rw [hlow₃ne x hxv]
            rw [hx3]
            obtain ⟨new, hnew, hwhite⟩ := post₂.stackExt
            rw [hnew] at hx
            rcases List.mem_append.mp hx with hn | hn
            · -- a node of the just-explored subtree
              have := post₂.newLow x (by rw [hnew]; exact List.mem_append_left _ hn)
                (fun hc => by
                  have h4 := hwhite x hn
                  have h5 := pre.inv.stackVis x hc
                  rw [h4] at h5
                  cases h5)
              exact Nat.le_trans (Nat.min_le_right _ _) this
            · -- a node of the old stack, handled by the loop invariant
              have hx' : (s.ind x).isSome = true := pre.inv.stackVis x hn
              have h6 : getN s.ind v < getN s.ind x := by
                have e1 : getN s₂.ind v = getN s.ind v := by
                  unfold getN
                  rw [hindv₂]
                have e2 : getN s₂.ind x = getN s.ind x := by
                  unfold getN
                  rw [post₂.indExt x hx']
                rw [e1, e2] at hgt'
                exact hgt'
              have h7 : getN s.low v ≤ getN s.low x := pre.aboveLow x hn h6
              have e3 : getN s₂.low v = getN s.low v := by
                unfold getN
                rw [hlowv₂]
              have e4 : getN s₂.low x = getN s.low x := by
                unfold getN
                rw [post₂.lowFroz x hx']
              rw [e4]
              exact Nat.le_trans (Nat.min_le_left _ _) (e3 ▸ h7) }
      obtain ⟨s', hrec, post'⟩ := ihws (done ++ [w]) s₃ pre₃
      have hvvis₃ : (s₃.ind v).isSome = true := hvvis₂
      have hwvis₃ : (s₃.ind w).isSome = true := by
        show (s₂.ind w).isSome = true
        rw [post₂.indV]
        rfl
      refine ⟨s', by rw [processSuccs_cons_white hw hdfs]; exact hrec, ?_⟩
      exact
        { inv := post'.inv
          idxMono := Nat.le_trans (Nat.le_of_lt post₂.idxMono) post'.idxMono
          indExt := by
            intro x hx
            rw [post'.indExt x (by
              show (s₂.ind x).isSome = true
              rw [post₂.indExt x hx]
              exact hx)]
            exact post₂.indExt x hx
          lowFrozOld := by
            intro x hxv hx
            rw [post'.lowFrozOld x hxv (by
              show (s₂.ind x).isSome = true
              rw [post₂.indExt x hx]
              exact hx)]
            show s₃.low x = s.low x
            rw [hlow₃ne x hxv]
            exact post₂.lowFroz x hx
          lowVmono := by
            refine Nat.le_trans post'.lowVmono ?_
            rw [hlow₃v]
            refine Nat.le_trans (Nat.min_le_left _ _) ?_
            unfold getN
            rw [hlowv₂]
          vStack := post'.vStack
          stackExt := by
            obtain ⟨new', hnew', hwhite'⟩ := post'.stackExt
            obtain ⟨new₂, hnew₂, hwhite₂⟩ := post₂.stackExt
            refine ⟨new' ++ new₂, ?_, ?_⟩
            · rw [hnew', hstack₃, hnew₂, List.append_assoc]
            · intro x hx
              rcases List.mem_append.mp hx with hx' | hx'
              · exact post₂.whiteMono x (hwhite' x hx')
              · exact hwhite₂ x hx'
          newVis := by
            intro x hx hx'
            rcases hvis₃ : s₃.ind x with _ | ix
            · have h8 := post'.newVis x hvis₃ hx'
              exact Nat.le_trans (Nat.le_of_lt post₂.idxMono) h8
            · have hsome₃ : (s₃.ind x).isSome = true := by rw [hvis₃]; rfl
              have h9 := post₂.newVis x hx hsome₃
              have heq9 : getN s'.ind x = getN s₃.ind x := by
                unfold getN
                rw [post'.indExt x hsome₃]
              rw [heq9]
              exact h9
          aboveLowFinal := post'.aboveLowFinal
          wsVis := by
            intro w' hw'
            rcases List.mem_cons.mp hw' with rfl | hw''
            · rw [post'.indExt w' hwvis₃]
              exact hwvis₃
            · exact post'.wsVis w' hw''
          wsLow := by
            intro w' hw' hstack'
            rcases List.mem_cons.mp hw' with rfl | hw''
            · -- the head successor: covered by the done-invariant
              have hw's : w' ∈ s₃.stack := by
                obtain ⟨new', hnew', hwhite'⟩ := post'.stackExt
                rw [hnew'] at hstack'
                rcases List.mem_append.mp hstack' with hn | hn
                · have h10 := hwhite' w' hn
                  rw [h10] at hwvis₃
                  cases hwvis₃
                · exact hn
              have h11 := pre₃.doneLow w'
                (List.mem_append_right done (List.mem_singleton.mpr rfl)) hw's
              have h12 : getN s'.ind w' = getN s₃.ind w' := by
                unfold getN
                rw [post'.indExt w' hwvis₃]
              rw [h12]
              exact Nat.le_trans post'.lowVmono h11
            · exact post'.wsLow w' hw'' hstack'
          whiteMono := fun x hx => post₂.whiteMono x (post'.whiteMono x hx)
          sccsExt := by
            obtain ⟨ns', hns'⟩ := post'.sccsExt
            obtain ⟨ns₂, hns₂⟩ := post₂.sccsExt
            refine ⟨ns₂ ++ ns', ?_⟩
            rw [hns', hsccs₃, hns₂, List.append_assoc] }
    · -- w already visited
      by_cases hmem : w ∈ s.onStack
      · -- on the stack: lowlink[v] = min(lowlink[v], indices[w])
        have hwvis : (s.ind w).isSome = true := by rw [hw]; rfl
        have hwstack : w ∈ s.stack := (pre.inv.onStackIff w).mp hmem
        have hle : min (getN s.low v) (getN s.ind w) ≤ getN s.low v :=
          Nat.min_le_left _ _
        have hwit : ∃ y ∈ s.stack,
            getN s.ind y = min (getN s.low v) (getN s.ind w) ∧ Reach g v y := by
          rcases Nat.le_total (getN s.low v) (getN s.ind w) with hc | hc
          · obtain ⟨y, hy, hiy, hr⟩ := pre.inv.lowWitness v hvstack
            exact ⟨y, hy, by rw [Nat.min_eq_left hc]; exact hiy, hr⟩
          · exact ⟨w, hwstack, by rw [Nat.min_eq_right hc],
              Reach.single hedgevw⟩
        have inv₃ : Inv g (v :: γ)
            (setLow s v (min (getN s.low v) (getN s.ind w))) :=
          setLow_inv pre.inv hle hwit
        set s₃ := setLow s v (min (getN s.low v) (getN s.ind w)) with hs₃
        have hlow₃v : getN s₃.low v = min (getN s.low v) (getN s.ind w) :=
          getN_updF_self _ _ _
        have hlow₃ne : ∀ x : V, x ≠ v → s₃.low x = s.low x :=
          fun x hx => updF_ne s.low v x _ hx
        have pre₃ : ProcPre g γ fuel v (done ++ [w]) ws s₃ :=
          { inv := inv₃
            succsEq := hsuccsEq'
            fuelOk := pre.fuelOk
            doneVis := by
              intro w' hw'
              rcases List.mem_append.mp hw' with hw'' | hw''
              · exact pre.doneVis w' hw''
              · have hww : w' = w := by simpa using hw''
                subst hww
                exact hwvis
            doneLow := by
              intro w' hw' hstack'
              show getN s₃.low v ≤ getN s₃.ind w'
              rw [hlow₃v]
              rcases List.mem_append.mp hw' with hw'' | hw''
              · exact Nat.le_trans (Nat.min_le_left _ _)
                  (pre.doneLow w' hw'' hstack')
              · have hww : w' = w := by simpa using hw''
                subst hww
                exact Nat.min_le_right _ _
            aboveLow := by
              intro x hx hgt
              have hxv : x ≠ v := by
                intro hc
                subst hc
                exact Nat.lt_irrefl _ hgt
              show getN s₃.low v ≤ getN s₃.low x
              rw [hlow₃v]
              unfold getN
              rw [hlow₃ne x hxv]
              exact Nat.le_trans (Nat.min_le_left _ _) (pre.aboveLow x hx hgt) }
        obtain ⟨s', hrec, post'⟩ := ihws (done ++ [w]) s₃ pre₃
        refine ⟨s', by rw [processSuccs_cons_onStack hw hmem]; exact hrec, ?_⟩
        exact
          { inv := post'.inv
            idxMono := post'.idxMono
            indExt := post'.indExt
            lowFrozOld := fun x hxv hx => by
              rw [post'.lowFrozOld x hxv hx]
              exact hlow₃ne x hxv
            lowVmono := by
              refine Nat.le_trans post'.lowVmono ?_
              rw [hlow₃v]
              exact Nat.min_le_left _ _
            vStack := post'.vStack
            stackExt := post'.stackExt
            newVis := post'.newVis
            aboveLowFinal := post'.aboveLowFinal
            wsVis := by
              intro w' hw'
              rcases List.mem_cons.mp hw' with rfl | hw''
              · rw [post'.indExt w' hwvis]
                exact hwvis
              · exact post'.wsVis w' hw''
            wsLow := by
              intro w' hw' hstack'
              rcases List.mem_cons.mp hw' with rfl | hw''
              · have hw's : w' ∈ s₃.stack := by
                  obtain ⟨new', hnew', hwhite'⟩ := post'.stackExt
                  rw [hnew'] at hstack'
                  rcases List.mem_append.mp hstack' with hn | hn
                  · have h10 : s.ind w' = none := hwhite' w' hn
                    rw [h10] at hwvis
                    cases hwvis
                  · exact hn
                have h11 := pre₃.doneLow w'
                  (List.mem_append_right done (List.mem_singleton.mpr rfl)) hw's
                have h12 : getN s'.ind w' = getN s₃.ind w' := by
                  unfold getN
                  rw [post'.indExt w' hwvis]
                rw [h12]
                exact Nat.le_trans post'.lowVmono h11
              · exact post'.wsLow w' hw'' hstack'
            whiteMono := post'.whiteMono
            sccsExt := post'.sccsExt }
      · -- already in a finished component: ignored
        have hwvis : (s.ind w).isSome = true := by rw [hw]; rfl
        have pre₃ : ProcPre g γ fuel v (done ++ [w]) ws s :=
          { inv := pre.inv
            succsEq := hsuccsEq'
            fuelOk := pre.fuelOk
            doneVis := by
              intro w' hw'
              rcases List.mem_append.mp hw' with hw'' | hw''
              · exact pre.doneVis w' hw''
              · have hww : w' = w := by simpa using hw''
                subst hww
                exact hwvis
            doneLow := by
              intro w' hw' hstack'
              rcases List.mem_append.mp hw' with hw'' | hw''
              · exact pre.doneLow w' hw'' hstack'
              · have hww : w' = w := by simpa using hw''
                subst hww
                exact absurd ((pre.inv.onStackIff w').mpr hstack') hmem
            aboveLow := pre.aboveLow }
        obtain ⟨s', hrec, post'⟩ := ihws (done ++ [w]) s pre₃
        refine ⟨s', by rw [processSuccs_cons_skip hw hmem]; exact hrec, ?_⟩
        exact
          { inv := post'.inv
            idxMono := post'.idxMono
            indExt := post'.indExt
            lowFrozOld := post'.lowFrozOld
            lowVmono := post'.lowVmono
            vStack := post'.vStack
            stackExt := post'.stackExt
            newVis := post'.newVis
            aboveLowFinal := post'.aboveLowFinal
            wsVis := by
              intro w' hw'
              rcases List.mem_cons.mp hw' with rfl | hw''
              · rw [post'.indExt w' hwvis]
                exact hwvis
              · exact post'.wsVis w' hw''
            wsLow := by
              intro w' hw' hstack'
              rcases List.mem_cons.mp hw' with rfl | hw''
              · -- w is off-stack and stays off-stack
                exfalso
                have hw's : w' ∈ s.stack := by
                  obtain ⟨new', hnew', hwhite'⟩ := post'.stackExt
                  rw [hnew'] at hstack'
                  rcases List.mem_append.mp hstack' with hn | hn
                  · have h10 : s.ind w' = none := hwhite' w' hn
                    rw [h10] at hwvis
                    cases hwvis
                  · exact hn
                exact hmem ((pre.inv.onStackIff w').mpr hw's)
              · exact post'.wsLow w' hw'' hstack'
            whiteMono := post'.whiteMono
            sccsExt := post'.sccsExt }

theorem popLoop_some {v : V} :
    ∀ (st o c : List V), v ∈ st → ∃ r, popLoop v st o c = some r
  | [], _, _, h => absurd h (List.not_mem_nil v)
  | w :: rest, o, c, h => by
    rw [popLoop]
    by_cases hwv : w = v
    · rw [if_pos hwv]
      exact ⟨_, rfl⟩
    · rw [if_neg hwv]
      refine popLoop_some rest (o.erase w) (c ++ [w]) ?_
      rcases List.mem_cons.mp h with heq | hmem
      · exact absurd heq.symm hwv
      · exact hmem

theorem split_at_first {v : V} :
    ∀ {l₁ l₂ r₁ r₂ : List V}, l₁ ++ v :: r₁ = l₂ ++ v :: r₂ →
      v ∉ l₁ → v ∉ l₂ → l₁ = l₂ ∧ r₁ = r₂
  | [], [], r₁, r₂, h, _, _ => ⟨rfl, by simpa using h⟩
  | [], b :: l₂, r₁, r₂, h, _, h₂ => by
    rw [List.nil_append] at h
    have hb : v = b := (List.cons.inj h).1
    exact absurd (hb ▸ List.mem_cons_self b l₂) h₂
  | a :: l₁, [], r₁, r₂, h, h₁, _ => by
    rw [List.nil_append] at h
    have ha : a = v := (List.cons.inj h).1
    exact absurd (ha ▸ List.mem_cons_self a l₁) h₁
  | a :: l₁, b :: l₂, r₁, r₂, h, h₁, h₂ => by
    have hab : a = b := (List.cons.inj h).1
    have htail : l₁ ++ v :: r₁ = l₂ ++ v :: r₂ := (List.cons.inj h).2
    obtain ⟨he, hr⟩ := split_at_first htail
      (fun hc => h₁ (List.mem_cons_of_mem a hc))
      (fun hc => h₂ (List.mem_cons_of_mem b hc))
    exact ⟨by rw [hab, he], hr⟩

theorem updF_eq_none {f : V → Option Nat} {v x : V} {n : Nat}
    (h : updF f v n x = none) : x ≠ v ∧ f x = none := by
  unfold updF at h
  by_cases hx : x = v
  · rw [if_pos hx] at h
    cases h
  · rw [if_neg hx] at h
    exact ⟨hx, h⟩

/-- One `dfs` call satisfies its contract, assuming the successor-loop
contract at one fuel less.  The two dichotomy branches are the pop at
lines 94-102 (a new SCC is emitted) and the no-pop exit. -/
theorem dfs_step {g : Graph V} (fuel : Nat)
    (IH : ∀ γ v done ws s, ProcPre g γ fuel v done ws s →
      ∃ s', processSuccs g fuel v ws s = some s' ∧ ProcPost g γ v ws s s') :
    ∀ γ v s₀, DfsPre g γ (fuel + 1) v s₀ →
      ∃ s', dfs g (fuel + 1) v s₀ = some s' ∧ DfsPost g γ v s₀ s' := by
  intro γ v s₀ pre
  obtain ⟨ws, hws⟩ := succsOf?_some_of_mem_keys pre.vKey
  have inv1 : Inv g (v :: γ) (visit v s₀) :=
    visit_inv pre.inv pre.vKey pre.vWhite pre.parentEdge
  have hindv1 : (visit v s₀).ind v = some s₀.idx := updF_self s₀.ind v s₀.idx
  have hvis1 : ((visit v s₀).ind v).isSome = true := by
    rw [hindv1]
    rfl
  have hvnot0 : v ∉ s₀.stack := fun hc => by
    have hvis := pre.inv.stackVis v hc
    rw [pre.vWhite] at hvis
    cases hvis
  have pre1 : ProcPre g γ fuel v [] ws (visit v s₀) :=
    { inv := inv1
      succsEq := by rw [List.nil_append]; exact hws
      fuelOk := Nat.le_of_lt_succ
        (Nat.lt_of_lt_of_le (whiteCount_visit_lt pre.vKey pre.vWhite) pre.fuelOk)
      doneVis := fun w hw => absurd hw (List.not_mem_nil w)
      doneLow := fun w hw => absurd hw (List.not_mem_nil w)
      aboveLow := by
        intro x hx hlt
        exfalso
        have hx' : x ∈ v :: s₀.stack := hx
        have hvv : getN (visit v s₀).ind v = s₀.idx := getN_updF_self s₀.ind v s₀.idx
        rcases List.mem_cons.mp hx' with rfl | h0
        · exact Nat.lt_irrefl _ hlt
        · have hvis := pre.inv.stackVis x h0
          have hxv : x ≠ v := fun hc => by
            rw [hc, pre.vWhite] at hvis
            cases hvis
          have hxe : getN (visit v s₀).ind x = getN s₀.ind x :=
            getN_updF_ne s₀.ind v x s₀.idx hxv
          have hxlt : getN s₀.ind x < s₀.idx := pre.inv.indLt x hvis
          rw [hvv, hxe] at hlt
          omega }
  obtain ⟨s₂, hproc, post2⟩ := IH γ v [] ws (visit v s₀) pre1
  have inv2 := post2.inv
  have hindv2 : s₂.ind v = some s₀.idx := by
    rw [post2.indExt v hvis1]
    exact hindv1
  have hvvis2 : (s₂.ind v).isSome = true := by
    rw [hindv2]
    rfl
  have hgetv2 : getN s₂.ind v = s₀.idx := by
    unfold getN
    rw [hindv2]
    rfl
  have hidx : s₀.idx + 1 ≤ s₂.idx := post2.idxMono
  obtain ⟨new, hstack2, hnew_white1⟩ := post2.stackExt
  have hstack2' : s₂.stack = new ++ v :: s₀.stack := hstack2
  have hnew_white0 : ∀ x ∈ new, s₀.ind x = none :=
    fun x hx => (updF_eq_none (hnew_white1 x hx)).2
  have hvnotnew : v ∉ new := fun hc => (updF_eq_none (hnew_white1 v hc)).1 rfl
  have hindext : ∀ x : V, (s₀.ind x).isSome = true → s₂.ind x = s₀.ind x := by
    intro x hx
    have hxv : x ≠ v := fun hc => by
      rw [hc, pre.vWhite] at hx
      cases hx
    have h1 : (visit v s₀).ind x = s₀.ind x := updF_ne s₀.ind v x s₀.idx hxv
    have h2 : ((visit v s₀).ind x).isSome = true := by
      rw [h1]
      exact hx
    rw [post2.indExt x h2, h1]
  have hlowext : ∀ x : V, (s₀.ind x).isSome = true → s₂.low x = s₀.low x := by
    intro x hx
    have hxv : x ≠ v := fun hc => by
      rw [hc, pre.vWhite] at hx
      cases hx
    have h1 : (visit v s₀).ind x = s₀.ind x := updF_ne s₀.ind v x s₀.idx hxv
    have h2 : ((visit v s₀).ind x).isSome = true := by
      rw [h1]
      exact hx
    rw [post2.lowFrozOld x hxv h2]
    exact updF_ne s₀.low v x s₀.idx hxv
  have hnewVis0 : ∀ x : V, s₀.ind x = none → x ≠ v → (s₂.ind x).isSome = true →
      s₀.idx + 1 ≤ getN s₂.ind x := by
    intro x hx hxv hx2
    have h1 : (visit v s₀).ind x = none := by
      show updF s₀.ind v s₀.idx x = none
      rw [updF_ne s₀.ind v x s₀.idx hxv]
      exact hx
    exact post2.newVis x h1 hx2
  have hnew_gt : ∀ x ∈ new, s₀.idx < getN s₂.ind x := by
    intro x hx
    have hxv : x ≠ v := fun hc => hvnotnew (hc ▸ hx)
    have hxvis : (s₂.ind x).isSome = true := inv2.stackVis x
      (by rw [hstack2']; exact List.mem_append_left _ hx)
    exact Nat.lt_of_succ_le (hnewVis0 x (hnew_white0 x hx) hxv hxvis)
  have hold_lt : ∀ y ∈ s₀.stack, getN s₂.ind y < s₀.idx := by
    intro y hy
    have hyvis : (s₀.ind y).isSome = true := pre.inv.stackVis y hy
    have he : getN s₂.ind y = getN s₀.ind y := by
      unfold getN
      rw [hindext y hyvis]
    rw [he]
    exact pre.inv.indLt y hyvis
  have hgrey_lt : ∀ u ∈ γ, getN s₂.ind u < s₀.idx :=
    fun u hu => hold_lt u (pre.inv.greySub u hu)
  have hedge_ws : ∀ y : V, edgeRel g v y → y ∈ ws := by
    rintro y ⟨ws'', hws'', hy⟩
    rw [hws] at hws''
    rw [← Option.some.inj hws''] at hy
    exact hy
  have hnewVis_f : ∀ x : V, s₀.ind x = none → (s₂.ind x).isSome = true →
      s₀.idx ≤ getN s₂.ind x := by
    intro x hx hx2
    by_cases hxv : x = v
    · subst hxv
      exact Nat.le_of_eq hgetv2.symm
    · exact Nat.le_of_succ_le (hnewVis0 x hx hxv hx2)
  have hvnotγ : v ∉ γ := fun hc => hvnot0 (pre.inv.greySub v hc)
  have hwhiteMono0 : ∀ x : V, s₂.ind x = none → s₀.ind x = none :=
    fun x hx => (updF_eq_none (post2.whiteMono x hx)).2
  have hnotvγ : ∀ x : V, x ≠ v → s₀.idx ≤ getN s₂.ind x → x ∉ v :: γ := by
    intro x hxv hge hc
    rcases List.mem_cons.mp hc with h1 | h2
    · exact hxv h1
    · have := hgrey_lt x h2
      omega
  have habove : ∀ x ∈ s₂.stack, x ≠ v → s₀.idx ≤ getN s₂.ind x →
      getN s₂.ind v < getN s₂.ind x := by
    intro x hx hxv hge
    rw [hgetv2]
    rcases Nat.lt_or_ge s₀.idx (getN s₂.ind x) with h | h
    · exact h
    · have heq2 : getN s₂.ind x = s₀.idx := Nat.le_antisymm h hge
      have hxvis : (s₂.ind x).isSome = true := inv2.stackVis x hx
      exact absurd (inv2.indInj x v hxvis hvvis2 (by rw [heq2, hgetv2])) hxv
  rcases hres : dfs g (fuel + 1) v s₀ with _ | s'
  · exfalso
    rw [dfs] at hres
    split at hres
    · rename_i hnone
      rw [hws] at hnone
      cases hnone
    · rename_i ws' hws'
      rw [hws] at hws'
      have hwe : ws = ws' := Option.some.inj hws'
      subst hwe
      split at hres
      · rename_i hn
        have hn' : processSuccs g fuel v ws (visit v s₀) = none := hn
        rw [hproc] at hn'
        cases hn'
      · rename_i s₁ hs₁
        have hs₁' : processSuccs g fuel v ws (visit v s₀) = some s₁ := hs₁
        rw [hproc] at hs₁'
        have hse : s₂ = s₁ := Option.some.inj hs₁'
        subst hse
        split at hres
        · split at hres
          · rename_i hplnone
            obtain ⟨r, hr⟩ := popLoop_some s₂.stack s₂.onStack [] post2.vStack
            rw [hr] at hplnone
            cases hplnone
          · cases hres
        · cases hres
  · obtain ⟨ws', s₁, hws', hproc₁, hdich⟩ := dfs_some_inv hres
    rw [hws] at hws'
    have hwe : ws = ws' := Option.some.inj hws'
    subst hwe
    rw [hproc] at hproc₁
    have hse : s₂ = s₁ := Option.some.inj hproc₁
    subst hse
    refine ⟨s', rfl, ?_⟩
    rcases hdich with ⟨hpop, st, onSt, comp, hpopeq, hs'⟩ | ⟨hnpop, hs'⟩
    · -- pop case: a new component comes off the stack
      subst hs'
      obtain ⟨pre', hsplit, hvpre, hcomp, honst⟩ := popLoop_spec hpopeq
      obtain ⟨hondNd, hoiff⟩ := honst inv2.onStackNd
      have hcomp' : comp = pre' ++ [v] := by
        rw [hcomp, List.nil_append]
      have hsplit2 : new ++ v :: s₀.stack = pre' ++ v :: st := by
        rw [← hstack2', hsplit]
      obtain ⟨hpre_new, hst_eq⟩ := split_at_first hsplit2 hvnotnew hvpre
      have hlowveq : getN s₂.low v = s₀.idx := by
        rw [hpop, hgetv2]
      have hcompmem : ∀ x : V, x ∈ comp ↔ (x ∈ new ∨ x = v) := by
        intro x
        rw [hcomp', ← hpre_new, List.mem_append, List.mem_singleton]
      have hcompsub : ∀ x ∈ comp, x ∈ s₂.stack := by
        intro x hx
        rw [hstack2']
        rcases (hcompmem x).mp hx with h1 | hxv
        · exact List.mem_append_left _ h1
        · rw [hxv]
          exact List.mem_append_right _ (List.mem_cons_self v s₀.stack)
      have hcomp_ge : ∀ x ∈ comp, s₀.idx ≤ getN s₂.ind x := by
        intro x hx
        rcases (hcompmem x).mp hx with h1 | hxv
        · exact Nat.le_of_lt (hnew_gt x h1)
        · rw [hxv]
          exact Nat.le_of_eq hgetv2.symm
      have hcomp_char : ∀ x : V, x ∈ s₂.stack → s₀.idx ≤ getN s₂.ind x → x ∈ comp := by
        intro x hx hge
        rw [hstack2'] at hx
        rcases List.mem_append.mp hx with h1 | h2
        · exact (hcompmem x).mpr (Or.inl h1)
        · rcases List.mem_cons.mp h2 with hxv | h3
          · exact (hcompmem x).mpr (Or.inr hxv)
          · have := hold_lt x h3
            omega
      have hcomp_vis : ∀ x ∈ comp, (s₂.ind x).isSome = true :=
        fun x hx => inv2.stackVis x (hcompsub x hx)
      have hst_sub : ∀ x ∈ st, x ∈ s₂.stack := by
        intro x hx
        have hx0 : x ∈ s₀.stack := by
          rw [hst_eq]
          exact hx
        rw [hstack2']
        exact List.mem_append_right _ (List.mem_cons_of_mem v hx0)
      have reach_v_to : ∀ x ∈ comp, Reach g v x := by
        intro x hx
        refine inv2.chainUp v post2.vStack x (hcompsub x hx) ?_
        rw [hgetv2]
        exact hcomp_ge x hx
      have reach_to_v : ∀ x ∈ comp, Reach g x v := by
        have H : ∀ n : Nat, ∀ x, x ∈ s₂.stack → s₀.idx ≤ getN s₂.ind x →
            getN s₂.ind x = n → Reach g x v := by
          intro n
          induction n using Nat.strong_induction_on with
          | _ n ih =>
            intro x hx hge hxn
            by_cases hxv : x = v
            · rw [hxv]
              exact Reach.refl v
            · have hxγ : x ∉ v :: γ := hnotvγ x hxv hge
              have hxvis : (s₂.ind x).isSome = true := inv2.stackVis x hx
              have hblow : getN s₂.low x < getN s₂.ind x := inv2.blackLow x hx hxγ
              obtain ⟨y, hy, hiy, hreach⟩ := inv2.lowWitness x hx
              have hvlt : getN s₂.ind v < getN s₂.ind x := habove x hx hxv hge
              have hlowle : getN s₂.low v ≤ getN s₂.low x :=
                post2.aboveLowFinal x hx hvlt
              have hyge : s₀.idx ≤ getN s₂.ind y := by
                rw [hiy]
                omega
              have hylt : getN s₂.ind y < n := by
                rw [hiy, ← hxn]
                exact hblow
              exact hreach.trans (ih _ hylt y hy hyge rfl)
        exact fun x hx => H (getN s₂.ind x) x (hcompsub x hx) (hcomp_ge x hx) rfl
      have hstep : ∀ c m : V, c ∈ s₂.stack → s₀.idx ≤ getN s₂.ind c →
          edgeRel g c m → Reach g m v →
          m ∈ s₂.stack ∧ s₀.idx ≤ getN s₂.ind m := by
        intro c m hc hcge he hmv
        have hcvis : (s₂.ind c).isSome = true := inv2.stackVis c hc
        have hmvis : (s₂.ind m).isSome = true := by
          by_cases hcv : c = v
          · subst hcv
            exact post2.wsVis m (hedge_ws m he)
          · exact inv2.blackSucc c hcvis (hnotvγ c hcv hcge) m he
        rcases inv2.visCover m hmvis with hmst | ⟨C, hC, hmC⟩
        · refine ⟨hmst, ?_⟩
          rcases Nat.lt_or_ge (getN s₂.ind m) s₀.idx with hlt | hge
          · exfalso
            by_cases hcv : c = v
            · subst hcv
              have := post2.wsLow m (hedge_ws m he) hmst
              omega
            · have h1 : getN s₂.low c ≤ getN s₂.ind m :=
                inv2.blackEdgeLow c hcvis (hnotvγ c hcv hcge) m he hmst
              have hvlt : getN s₂.ind v < getN s₂.ind c := habove c hc hcv hcge
              have h2 : getN s₂.low v ≤ getN s₂.low c :=
                post2.aboveLowFinal c hc hvlt
              omega
          · exact hge
        · exfalso
          have hvc : Reach g v c := by
            refine inv2.chainUp v post2.vStack c hc ?_
            rw [hgetv2]
            exact hcge
          have hvm : Reach g v m := hvc.trans (Reach.single he)
          have hvC : v ∈ C := (inv2.sccsMax C hC m hmC v).mpr ⟨hmv, hvm⟩
          have hvflat : v ∈ s₂.sccs.flatten := List.mem_flatten.mpr ⟨C, hC, hvC⟩
          exact (List.nodup_append.mp inv2.disj).2.2 hvflat post2.vStack
      have hwalk : ∀ c z : V, Reach g c z → c ∈ s₂.stack →
          s₀.idx ≤ getN s₂.ind c → Reach g z v →
          z ∈ s₂.stack ∧ s₀.idx ≤ getN s₂.ind z := by
        intro c z hcz
        induction hcz with
        | refl => exact fun h1 h2 _ => ⟨h1, h2⟩
        | head e tail ih =>
          intro h1 h2 hzv
          obtain ⟨hm1, hm2⟩ := hstep _ _ h1 h2 e (tail.trans hzv)
          exact ih hm1 hm2 hzv
      have hcompmax : ∀ a ∈ comp, ∀ y : V, y ∈ comp ↔ (Reach g a y ∧ Reach g y a) := by
        intro a ha y
        constructor
        · intro hy
          exact ⟨(reach_to_v a ha).trans (reach_v_to y hy),
            (reach_to_v y hy).trans (reach_v_to a ha)⟩
        · rintro ⟨hay, hya⟩
          have hvy : Reach g v y := (reach_v_to a ha).trans hay
          have hyv : Reach g y v := hya.trans (reach_to_v a ha)
          obtain ⟨hyst, hyge⟩ := hwalk v y hvy post2.vStack
            (Nat.le_of_eq hgetv2.symm) hyv
          exact hcomp_char y hyst hyge
      have hind_eq_γ : ∀ u ∈ γ, getN s₂.ind u = getN s₀.ind u := by
        intro u hu
        have huvis := pre.inv.stackVis u (pre.inv.greySub u hu)
        unfold getN
        rw [hindext u huvis]
      have hinv3 : Inv g γ
          { s₂ with
            stack := st
            onStack := onSt
            sccs := s₂.sccs ++ [comp] } :=
        { stackNd := by
            show st.Nodup
            rw [← hst_eq]
            exact pre.inv.stackNd
          onStackIff := by
            intro x
            show x ∈ onSt ↔ x ∈ st
            rw [hoiff x, inv2.onStackIff x, hstack2', ← hst_eq, ← hpre_new]
            constructor
            · rintro ⟨hmem, hnot⟩
              rcases List.mem_append.mp hmem with h1 | h2
              · exact absurd (Or.inl h1) hnot
              · rcases List.mem_cons.mp h2 with rfl | h3
                · exact absurd (Or.inr rfl) hnot
                · exact h3
            · intro hx0
              refine ⟨List.mem_append_right _ (List.mem_cons_of_mem v hx0), ?_⟩
              rintro (h1 | rfl)
              · have h2 := pre.inv.stackVis x hx0
                rw [hnew_white0 x h1] at h2
                cases h2
              · exact hvnot0 hx0
          onStackNd := hondNd
          stackVis := by
            intro x hx
            exact inv2.stackVis x (hst_sub x hx)
          sccsVis := by
            intro C hC x hx
            have hC' : C ∈ s₂.sccs ++ [comp] := hC
            rcases List.mem_append.mp hC' with h1 | h2
            · exact inv2.sccsVis C h1 x hx
            · rw [List.mem_singleton] at h2
              subst h2
              exact hcomp_vis x hx
          visCover := by
            intro x hx
            have hcm : comp ∈ s₂.sccs ++ [comp] :=
              List.mem_append_right _ (List.mem_cons_self comp [])
            rcases inv2.visCover x hx with hst2 | ⟨C, hC, hxC⟩
            · rw [hstack2'] at hst2
              rcases List.mem_append.mp hst2 with h1 | h2
              · exact Or.inr ⟨comp, hcm, (hcompmem x).mpr (Or.inl h1)⟩
              · rcases List.mem_cons.mp h2 with rfl | h3
                · exact Or.inr ⟨comp, hcm, (hcompmem x).mpr (Or.inr rfl)⟩
                · exact Or.inl (by show x ∈ st; rw [← hst_eq]; exact h3)
            · exact Or.inr ⟨C, List.mem_append_left _ hC, hxC⟩
          disj := by
            show ((s₂.sccs ++ [comp]).flatten ++ st).Nodup
            have hflat : (s₂.sccs ++ [comp]).flatten ++ st =
                s₂.sccs.flatten ++ s₂.stack := by
              rw [List.flatten_append, List.flatten_cons, List.flatten_nil,
                List.append_nil, List.append_assoc, hcomp', ← hpre_new,
                List.append_assoc, List.singleton_append, ← hst_eq, ← hstack2']
            rw [hflat]
            exact inv2.disj
          sccsNe := by
            intro C hC
            have hC' : C ∈ s₂.sccs ++ [comp] := hC
            rcases List.mem_append.mp hC' with h1 | h2
            · exact inv2.sccsNe C h1
            · rw [List.mem_singleton] at h2
              subst h2
              rw [hcomp']
              intro hc
              have hm : v ∈ pre' ++ [v] :=
                List.mem_append_right _ (List.mem_cons_self v [])
              rw [hc] at hm
              cases hm
          indLt := inv2.indLt
          indInj := inv2.indInj
          lowDom := inv2.lowDom
          lowLe := inv2.lowLe
          domKeys := inv2.domKeys
          stackSorted := by
            show st.Pairwise (fun a b => getN s₂.ind b < getN s₂.ind a)
            have hsub : st.Sublist s₂.stack := by
              rw [hstack2', ← hst_eq]
              have h1 := List.sublist_append_right (new ++ [v]) s₀.stack
              rw [List.append_assoc, List.singleton_append] at h1
              exact h1
            exact inv2.stackSorted.sublist hsub
          emptyNoGrey := by
            intro hγ
            show st = []
            rw [← hst_eq]
            exact pre.inv.emptyNoGrey hγ
          greySub := by
            intro u hu
            show u ∈ st
            rw [← hst_eq]
            exact pre.inv.greySub u hu
          greyChain := pre.inv.greyChain
          greySorted := by
            refine List.Pairwise.imp_of_mem ?_ pre.inv.greySorted
            intro a b ha hb hR
            show getN s₂.ind b < getN s₂.ind a
            rw [hind_eq_γ a ha, hind_eq_γ b hb]
            exact hR
          blackLow := by
            intro x hx hxγ
            have hx0 : x ∈ s₀.stack := by
              rw [hst_eq]
              exact hx
            have hxv : x ≠ v := fun hc => hvnot0 (hc ▸ hx0)
            exact inv2.blackLow x (hst_sub x hx)
              (fun hc => (List.mem_cons.mp hc).elim hxv hxγ)
          blackSucc := by
            intro x hxvis hxγ y hy
            by_cases hxv : x = v
            · subst hxv
              exact post2.wsVis y (hedge_ws y hy)
            · exact inv2.blackSucc x hxvis
                (fun hc => (List.mem_cons.mp hc).elim hxv hxγ) y hy
          blackEdgeLow := by
            intro x hxvis hxγ y hy hyst
            have hyst2 : y ∈ s₂.stack := hst_sub y hyst
            by_cases hxv : x = v
            · subst hxv
              exact post2.wsLow y (hedge_ws y hy) hyst2
            · exact inv2.blackEdgeLow x hxvis
                (fun hc => (List.mem_cons.mp hc).elim hxv hxγ) y hy hyst2
          chainUp := fun x hx y hy hle =>
            inv2.chainUp x (hst_sub x hx) y (hst_sub y hy) hle
          lowWitness := by
            intro x hx
            obtain ⟨y, hy, hiy, hr⟩ := inv2.lowWitness x (hst_sub x hx)
            have hx0 : x ∈ s₀.stack := by
              rw [hst_eq]
              exact hx
            have hxlt : getN s₂.ind x < s₀.idx := hold_lt x hx0
            have hxvis : (s₂.ind x).isSome = true := inv2.stackVis x (hst_sub x hx)
            have hlowx : getN s₂.low x ≤ getN s₂.ind x := inv2.lowLe x hxvis
            have hylt : getN s₂.ind y < s₀.idx := by
              rw [hiy]
              omega
            have hy2 : y ∈ new ++ v :: s₀.stack := by
              rw [← hstack2']
              exact hy
            rcases List.mem_append.mp hy2 with h1 | h2
            · have := hnew_gt y h1
              omega
            · rcases List.mem_cons.mp h2 with rfl | h3
              · rw [hgetv2] at hylt
                omega
              · exact ⟨y, by show y ∈ st; rw [← hst_eq]; exact h3, hiy, hr⟩
          sccsMax := by
            intro C hC a ha y
            have hC' : C ∈ s₂.sccs ++ [comp] := hC
            rcases List.mem_append.mp hC' with h1 | h2
            · exact inv2.sccsMax C h1 a ha y
            · rw [List.mem_singleton] at h2
              subst h2
              exact hcompmax a ha y }
      obtain ⟨ns, hns⟩ := post2.sccsExt
      have hns' : s₂.sccs = s₀.sccs ++ ns := hns
      exact
        { inv := hinv3
          indV := hindv2
          idxMono := Nat.lt_of_succ_le hidx
          indExt := hindext
          lowFroz := hlowext
          newVis := hnewVis_f
          stackExt := ⟨[], by rw [List.nil_append]; exact hst_eq.symm,
            fun x hx => absurd hx (List.not_mem_nil x)⟩
          newLow := by
            intro x hx hxn
            exact absurd (show x ∈ s₀.stack by rw [hst_eq]; exact hx) hxn
          popDichotomy := Or.inl ⟨hlowveq,
            by show v ∉ st; rw [← hst_eq]; exact hvnot0, hst_eq.symm⟩
          whiteMono := hwhiteMono0
          sccsExt := ⟨ns ++ [comp], by
            show s₂.sccs ++ [comp] = s₀.sccs ++ (ns ++ [comp])
            rw [hns', List.append_assoc]⟩ }
    · -- no-pop exit: `v` stays on the stack with a strictly lower lowlink
      rw [hs']
      have hlow_le : getN s₂.low v ≤ s₀.idx := by
        rw [← hgetv2]
        exact inv2.lowLe v hvvis2
      have hlow_lt : getN s₂.low v < s₀.idx :=
        Nat.lt_of_le_of_ne hlow_le (fun hc => hnpop (by rw [hgetv2]; exact hc))
      have hganefact : γ = [] → False := by
        intro hγ
        have hstk0 : s₀.stack = [] := pre.inv.emptyNoGrey hγ
        obtain ⟨y, hy, hiy, _⟩ := inv2.lowWitness v post2.vStack
        rw [hstack2', hstk0] at hy
        rcases List.mem_append.mp hy with hynew | hyv
        · have h1 := hnew_gt y hynew
          rw [hiy] at h1
          omega
        · rcases List.mem_cons.mp hyv with rfl | hnil
          · rw [hgetv2] at hiy
            omega
          · cases hnil
      have hinvN : Inv g γ s₂ :=
        { stackNd := inv2.stackNd
          onStackIff := inv2.onStackIff
          onStackNd := inv2.onStackNd
          stackVis := inv2.stackVis
          sccsVis := inv2.sccsVis
          visCover := inv2.visCover
          disj := inv2.disj
          sccsNe := inv2.sccsNe
          indLt := inv2.indLt
          indInj := inv2.indInj
          lowDom := inv2.lowDom
          lowLe := inv2.lowLe
          domKeys := inv2.domKeys
          stackSorted := inv2.stackSorted
          emptyNoGrey := fun hγ => (hganefact hγ).elim
          greySub := fun u hu => inv2.greySub u (List.mem_cons_of_mem v hu)
          greyChain := inv2.greyChain.tail
          greySorted := (List.pairwise_cons.mp inv2.greySorted).2
          blackLow := by
            intro x hx hxγ
            by_cases hxv : x = v
            · subst hxv
              rw [hgetv2]
              exact hlow_lt
            · exact inv2.blackLow x hx
                (fun hc => (List.mem_cons.mp hc).elim hxv hxγ)
          blackSucc := by
            intro x hxvis hxγ y hy
            by_cases hxv : x = v
            · subst hxv
              exact post2.wsVis y (hedge_ws y hy)
            · exact inv2.blackSucc x hxvis
                (fun hc => (List.mem_cons.mp hc).elim hxv hxγ) y hy
          blackEdgeLow := by
            intro x hxvis hxγ y hy hyst
            by_cases hxv : x = v
            · subst hxv
              exact post2.wsLow y (hedge_ws y hy) hyst
            · exact inv2.blackEdgeLow x hxvis
                (fun hc => (List.mem_cons.mp hc).elim hxv hxγ) y hy hyst
          chainUp := inv2.chainUp
          lowWitness := inv2.lowWitness
          sccsMax := inv2.sccsMax }
      obtain ⟨ns, hns⟩ := post2.sccsExt
      have hns' : s₂.sccs = s₀.sccs ++ ns := hns
      exact
        { inv := hinvN
          indV := hindv2
          idxMono := Nat.lt_of_succ_le hidx
          indExt := hindext
          lowFroz := hlowext
          newVis := hnewVis_f
          stackExt := ⟨new ++ [v], by
            rw [hstack2', List.append_assoc, List.singleton_append],
            fun x hx => by
              rcases List.mem_append.mp hx with h1 | h2
              · exact hnew_white0 x h1
              · rcases List.mem_cons.mp h2 with rfl | h3
                · exact pre.vWhite
                · cases h3⟩
          newLow := by
            intro x hx hxnot
            have hx2 : x ∈ new ++ v :: s₀.stack := by
              rw [← hstack2']
              exact hx
            rcases List.mem_append.mp hx2 with hxnew | hxcons
            · refine post2.aboveLowFinal x hx ?_
              rw [hgetv2]
              exact hnew_gt x hxnew
            · rcases List.mem_cons.mp hxcons with rfl | h0
              · exact Nat.le_refl _
              · exact absurd h0 hxnot
          popDichotomy := Or.inr ⟨hlow_lt, post2.vStack⟩
          whiteMono := hwhiteMono0
          sccsExt := ⟨ns, hns'⟩ }

/-- The fuel ladder: at every fuel level at least the number of unvisited
keys, `dfs` meets its contract. -/
theorem tarjan_ladder {g : Graph V} (hg : Closed g) :
    ∀ fuel : Nat, ∀ γ v s, DfsPre g γ fuel v s →
      ∃ s', dfs g fuel v s = some s' ∧ DfsPost g γ v s s'
  | 0, _, _, _, pre => absurd pre.fuelOk (by
      have := whiteCount_pos pre.vKey pre.vWhite
      omega)
  | fuel + 1, γ, v, s, pre =>
      dfs_step fuel (proc_step hg fuel (tarjan_ladder hg fuel)) γ v s pre

/-- The empty state satisfies the invariant with no grey nodes. -/
theorem initState_inv {g : Graph V} : Inv g [] (initState : TState V) :=
  { stackNd := List.nodup_nil
    onStackIff := fun _ => Iff.rfl
    onStackNd := List.nodup_nil
    stackVis := fun x hx => absurd hx (List.not_mem_nil x)
    sccsVis := fun C hC => absurd hC (List.not_mem_nil C)
    visCover := fun _ hx => Bool.noConfusion hx
    disj := List.nodup_nil
    sccsNe := fun C hC => absurd hC (List.not_mem_nil C)
    indLt := fun _ hx => Bool.noConfusion hx
    indInj := fun _ _ hx => Bool.noConfusion hx
    lowDom := fun _ => rfl
    lowLe := fun _ hx => Bool.noConfusion hx
    domKeys := fun _ hx => Bool.noConfusion hx
    stackSorted := List.Pairwise.nil
    emptyNoGrey := fun _ => rfl
    greySub := fun u hu => absurd hu (List.not_mem_nil u)
    greyChain := trivial
    greySorted := List.Pairwise.nil
    blackLow := fun x hx => absurd hx (List.not_mem_nil x)
    blackSucc := fun _ hx => Bool.noConfusion hx
    blackEdgeLow := fun _ hx => Bool.noConfusion hx
    chainUp := fun x hx => absurd hx (List.not_mem_nil x)
    lowWitness := fun x hx => absurd hx (List.not_mem_nil x)
    sccsMax := fun C hC => absurd hC (List.not_mem_nil C) }

/-- The main loop (lines 104-106) preserves the no-grey invariant, keeps
already-visited nodes visited and visits every listed key. -/
theorem mainLoop_spec {g : Graph V} (hg : Closed g) :
    ∀ (vs : List V) (s : TState V), (∀ v ∈ vs, v ∈ keysOf g) → Inv g [] s →
      ∃ s', mainLoop g (keysOf g).length vs s = some s' ∧ Inv g [] s' ∧
        (∀ x : V, (s.ind x).isSome = true → (s'.ind x).isSome = true) ∧
        (∀ v ∈ vs, (s'.ind v).isSome = true)
  | [], s, _, hinv => ⟨s, by rw [mainLoop], hinv, fun _ hx => hx,
      fun v hv => absurd hv (List.not_mem_nil v)⟩
  | v :: vs, s, hvs, hinv => by
    rcases hw : s.ind v with _ | n
    · have pre : DfsPre g [] (keysOf g).length v s :=
        { inv := hinv
          vKey := hvs v (List.mem_cons_self v vs)
          vWhite := hw
          parentEdge := fun u hu => Option.noConfusion hu
          fuelOk := List.length_filter_le _ _ }
      obtain ⟨s₁, hd, post⟩ := tarjan_ladder hg (keysOf g).length [] v s pre
      obtain ⟨s₂, hml, hinv₂, hmono₂, hvis₂⟩ :=
        mainLoop_spec hg vs s₁ (fun w hwm => hvs w (List.mem_cons_of_mem v hwm)) post.inv
      refine ⟨s₂, ?_, hinv₂, ?_, ?_⟩
      · rw [mainLoop, if_pos (by rw [hw]; rfl), hd]
        exact hml
      · intro x hx
        refine hmono₂ x ?_
        rw [post.indExt x hx]
        exact hx
      · intro w hwm
        rcases List.mem_cons.mp hwm with rfl | h1
        · refine hmono₂ w ?_
          rw [post.indV]
          rfl
        · exact hvis₂ w h1
    · obtain ⟨s₂, hml, hinv₂, hmono₂, hvis₂⟩ :=
        mainLoop_spec hg vs s (fun w hwm => hvs w (List.mem_cons_of_mem v hwm)) hinv
      refine ⟨s₂, ?_, hinv₂, hmono₂, ?_⟩
      · rw [mainLoop, if_neg (by rw [hw]; exact fun h => Bool.noConfusion h)]
        exact hml
      · intro w hwm
        rcases List.mem_cons.mp hwm with rfl | h1
        · exact hmono₂ w (by rw [hw]; rfl)
        · exact hvis₂ w h1

/-- Running `tarjans_scc` on a closed graph succeeds, every key ends up
visited, and the final state satisfies the invariant with an empty stack. -/
theorem tarjansSCC_spec {g : Graph V} (hg : Closed g) :
    ∃ s', mainLoop g (keysOf g).length (keysOf g) initState = some s' ∧
      Inv g [] s' ∧ ∀ v ∈ keysOf g, (s'.ind v).isSome = true := by
  obtain ⟨s', hml, hinv, _, hvis⟩ :=
    mainLoop_spec hg (keysOf g) initState (fun _ hv => hv) initState_inv
  exact ⟨s', hml, hinv, hvis⟩

theorem nodup_of_mem_flatten_nodup {α : Type} {l : List (List α)}
    (h : l.flatten.Nodup) {C : List α} (hC : C ∈ l) : C.Nodup := by
  obtain ⟨s, t, rfl⟩ := List.append_of_mem hC
  rw [List.flatten_append, List.flatten_cons] at h
  exact (List.nodup_append.mp (List.nodup_append.mp h).2.1).1

theorem flatten_nodup_disjoint {α : Type} {l : List (List α)}
    (h : l.flatten.Nodup) :
    ∀ C₁ ∈ l, ∀ C₂ ∈ l, ∀ v, v ∈ C₁ → v ∈ C₂ → C₁ = C₂ := by
  induction l with
  | nil =>
    intro C₁ h1
    exact absurd h1 (List.not_mem_nil C₁)
  | cons C l ih =>
    rw [List.flatten_cons, List.nodup_append] at h
    intro C₁ h1 C₂ h2 v hv1 hv2
    rcases List.mem_cons.mp h1 with rfl | h1'
    · rcases List.mem_cons.mp h2 with rfl | h2'
      · rfl
      · exact (h.2.2 hv1 (List.mem_flatten.mpr ⟨C₂, h2', hv2⟩)).elim
    · rcases List.mem_cons.mp h2 with rfl | h2'
      · exact (h.2.2 hv2 (List.mem_flatten.mpr ⟨C₁, h1', hv1⟩)).elim
      · exact ih h.2.1 C₁ h1' C₂ h2' v hv1 hv2

/-- In an acyclic closed graph every emitted component is a singleton whose
node has no self-edge. -/
theorem acyclic_sccs_singleton {g : Graph V} (hg : Closed g)
    (hnc : ¬ HasCycle g) :
    ∀ l, tarjansSCC g = some l → ∀ C ∈ l, ∃ x, C = [x] ∧ ¬ edgeRel g x x := by
  obtain ⟨s', hml, hinv, _⟩ := tarjansSCC_spec hg
  intro l ht C hC
  have hts : tarjansSCC g = some s'.sccs := by
    unfold tarjansSCC
    rw [hml]
    rfl
  rw [ht] at hts
  have hls : l = s'.sccs := Option.some.inj hts
  subst hls
  have hstk : s'.stack = [] := hinv.emptyNoGrey rfl
  have hflat : s'.sccs.flatten.Nodup := by
    have h := hinv.disj
    rw [hstk, List.append_nil] at h
    exact h
  have hCnd : C.Nodup := nodup_of_mem_flatten_nodup hflat hC
  have hkeys : ∀ x ∈ C, x ∈ keysOf g :=
    fun x hx => hinv.domKeys x (hinv.sccsVis C hC x hx)
  cases C with
  | nil => exact absurd rfl (hinv.sccsNe [] hC)
  | cons x rest =>
    cases rest with
    | nil =>
      refine ⟨x, rfl, ?_⟩
      intro hself
      exact hnc ⟨x, x, hkeys x (List.mem_cons_self x []), hself, Reach.refl x⟩
    | cons y rest' =>
      exfalso
      have hxC : x ∈ x :: y :: rest' := List.mem_cons_self _ _
      have hyC : y ∈ x :: y :: rest' :=
        List.mem_cons_of_mem x (List.mem_cons_self _ _)
      have hxy : x ≠ y := (List.pairwise_cons.mp hCnd).1 y (List.mem_cons_self _ _)
      have hmut := (hinv.sccsMax _ hC x hxC y).mp hyC
      rcases hmut.1.cases_head with heq | ⟨c, hedge, hcy⟩
      · exact hxy heq
      · exact hnc ⟨x, c, hkeys x hxC, hedge, hcy.trans hmut.2⟩

/-- C4: on a closed graph, `tarjans_scc` succeeds and places two keys in
a common component exactly when each reaches the other along directed
edges (reflexively, so a node always shares a component with itself). -/
theorem tarjans_scc_correct {g : Graph V} (hg : Closed g) :
    ∃ l, tarjansSCC g = some l ∧
      ∀ u ∈ keysOf g, ∀ w ∈ keysOf g,
        ((∃ C ∈ l, u ∈ C ∧ w ∈ C) ↔ (Reach g u w ∧ Reach g w u)) := by
  obtain ⟨s', hml, hinv, hvis⟩ := tarjansSCC_spec hg
  refine ⟨s'.sccs, by unfold tarjansSCC; rw [hml]; rfl, ?_⟩
  intro u hu w hw
  constructor
  · rintro ⟨C, hC, huC, hwC⟩
    exact (hinv.sccsMax C hC u huC w).mp hwC
  · rintro ⟨huw, hwu⟩
    have hstk : s'.stack = [] := hinv.emptyNoGrey rfl
    rcases hinv.visCover u (hvis u hu) with h1 | ⟨C, hC, huC⟩
    · rw [hstk] at h1
      cases h1
    · exact ⟨C, hC, huC, (hinv.sccsMax C hC u huC w).mpr ⟨huw, hwu⟩⟩

/-- Witness for C4: on the two-node mutual-dependence graph the contract
holds with hypotheses discharged concretely. -/
theorem c4_witness :
    Closed gAB ∧
    ∃ l, tarjansSCC gAB = some l ∧
      ∀ u ∈ keysOf gAB, ∀ w ∈ keysOf gAB,
        ((∃ C ∈ l, u ∈ C ∧ w ∈ C) ↔ (Reach gAB u w ∧ Reach gAB w u)) :=
  ⟨by decide, tarjans_scc_correct (by decide)⟩

/-- C10: on a closed graph the returned components partition the key set —
every key is covered, two components sharing a node are equal, members are
keys, and no component is empty. -/
theorem c10_partition {g : Graph V} (hg : Closed g) :
    ∃ l, tarjansSCC g = some l ∧
      (∀ v ∈ keysOf g, ∃ C ∈ l, v ∈ C) ∧
      (∀ v : V, ∀ C₁ ∈ l, ∀ C₂ ∈ l, v ∈ C₁ → v ∈ C₂ → C₁ = C₂) ∧
      (∀ C ∈ l, ∀ x ∈ C, x ∈ keysOf g) ∧
      (∀ C ∈ l, C ≠ []) := by
  obtain ⟨s', hml, hinv, hvis⟩ := tarjansSCC_spec hg
  have hstk : s'.stack = [] := hinv.emptyNoGrey rfl
  have hflat : s'.sccs.flatten.Nodup := by
    have h := hinv.disj
    rw [hstk, List.append_nil] at h
    exact h
  refine ⟨s'.sccs, by unfold tarjansSCC; rw [hml]; rfl, ?_, ?_, ?_, hinv.sccsNe⟩
  · intro v hv
    rcases hinv.visCover v (hvis v hv) with h1 | h2
    · rw [hstk] at h1
      cases h1
    · exact h2
  · exact fun v C₁ h1 C₂ h2 hv1 hv2 =>
      flatten_nodup_disjoint hflat C₁ h1 C₂ h2 v hv1 hv2
  · exact fun C hC x hx => hinv.domKeys x (hinv.sccsVis C hC x hx)

/-- Witness for C10: the partition property at the concrete two-node
mutual-dependence graph. -/
theorem c10_witness :
    Closed gAB ∧
    ∃ l, tarjansSCC gAB = some l ∧
      (∀ v ∈ keysOf gAB, ∃ C ∈ l, v ∈ C) ∧
      (∀ v : String, ∀ C₁ ∈ l, ∀ C₂ ∈ l, v ∈ C₁ → v ∈ C₂ → C₁ = C₂) ∧
      (∀ C ∈ l, ∀ x ∈ C, x ∈ keysOf gAB) ∧
      (∀ C ∈ l, C ≠ []) :=
  ⟨by decide, c10_partition (by decide)⟩

/-- C3, amended: in a closed acyclic graph every component is a self-edge-free
singleton, and an off-diagonal cell is `-1` when the two statements' depths
agree (including both unknown) and the `np.full` fill value `0` — not `-1`
as the spec says — otherwise. -/
theorem c3_amended (g : Graph String) (sd : List (String × Nat))
    (si : List (String × List String)) (hg : Closed g) (hnc : ¬ HasCycle g)
    (M : Mat) (nodes : List String)
    (hm : buildCycleMatrix g sd si = some (M, nodes)) :
    (∀ l, tarjansSCC g = some l → ∀ C ∈ l, ∃ x, C = [x] ∧ ¬ edgeRel g x x) ∧
    (∀ u ∈ keysOf g, ∀ v ∈ keysOf g, u ≠ v →
      M (nodes.indexOf u) (nodes.indexOf v) =
        if depthOf sd u = depthOf sd v then Cell.int (-1) else Cell.int 0) := by
  refine ⟨acyclic_sccs_singleton hg hnc, ?_⟩
  intro u hu v hv hne
  obtain ⟨l, ht, hn, hM⟩ := buildCycleMatrixE_inv hm
  subst hn
  subst hM
  have hsing := acyclic_sccs_singleton hg hnc l ht
  have hmiss : ∀ C ∈ l.filter (fun c => decide (1 < c.length)),
      ¬(u ∈ C ∧ v ∈ C ∧ u ≠ v) := by
    intro C hCf
    obtain ⟨hCl, hp⟩ := List.mem_filter.mp hCf
    obtain ⟨x, hxe, -⟩ := hsing C hCl
    subst hxe
    intro _
    exact absurd (of_decide_eq_true hp) (Nat.lt_irrefl 1)
  have hfill := annotateAll_read_miss id si (pySort (keysOf g)) u v
    (mem_pySort hu) (mem_pySort hv) (l.filter (fun c => decide (1 < c.length)))
    (fun _ _ => Cell.int 0) hmiss
  by_cases hdep : depthOf sd u = depthOf sd v
  · rw [if_pos hdep]
    exact forceNA_read_hit sd _ _ _ _ u v
      (getElem?_indexOf (mem_pySort hu)) (getElem?_indexOf (mem_pySort hv))
      (Or.inr hdep)
  · rw [if_neg hdep]
    rw [forceNA_read_miss sd _ _ _ _ u v
      (getElem?_indexOf (mem_pySort hu)) (getElem?_indexOf (mem_pySort hv))
      (indexOf_ne (mem_pySort hu) (mem_pySort hv) hne) hdep]
    rw [hfill]

/-- Witness for C3: the acyclic two-node graph realises the amended cell
description at the unequal-depth pair. -/
theorem c3_witness :
    Closed gC3 ∧ ¬ HasCycle gC3 ∧
    ∃ M nodes, buildCycleMatrix gC3 sdC3 [] = some (M, nodes) ∧
      (∀ l, tarjansSCC gC3 = some l → ∀ C ∈ l, ∃ x, C = [x] ∧ ¬ edgeRel gC3 x x) ∧
      M (nodes.indexOf "S1_r0_a") (nodes.indexOf "S2_r0_a") =
        (if depthOf sdC3 "S1_r0_a" = depthOf sdC3 "S2_r0_a" then Cell.int (-1)
         else Cell.int 0) := by
  rcases hm : buildCycleMatrix gC3 sdC3 [] with _ | ⟨M, nodes⟩
  · exact absurd hm (buildCycleMatrixE_ne_none (by decide))
  · obtain ⟨h1, h2⟩ := c3_amended gC3 sdC3 [] (by decide) gC3_no_cycle M nodes hm
    exact ⟨by decide, gC3_no_cycle, M, nodes, rfl, h1,
      h2 "S1_r0_a" (by decide) "S2_r0_a" (by decide) (by decide)⟩

/-- Witness for C9: rendering the spec's end-to-end scenario with the set
enumerated in reverse order yields the same lines as the canonical order. -/
theorem c9_witness :
    pipelineRender List.reverse
      [some ⟨"S1", "S2", "0", "0", "a"⟩, none, some ⟨"S2", "S1", "0", "0", "a"⟩]
      [("S1", 1), ("S2", 1)] [("S1", ["i"]), ("S2", ["i"])] =
    pipelineRender id
      [some ⟨"S1", "S2", "0", "0", "a"⟩, none, some ⟨"S2", "S1", "0", "0", "a"⟩]
      [("S1", 1), ("S2", 1)] [("S1", ["i"]), ("S2", ["i"])] :=
  c9_determinism List.reverse (fun l => List.reverse_perm l) _ _ _

end CycleCheck
